import Mathlib

/-!
# Verification of `ai-tools-gui-automation`

Shallow embedding, in Lean 4, of the parts of the repository
`tugcantopaloglu/ai-tools-gui-automation` that the specification talks
about:

* `src/markdown_parser.py` — the two regex scans (`_parse_structured_format`,
  `_parse_simple_format`) and the stateful `MarkdownParser.parse`;
* `src/file_manager.py` — `rename_and_move` / `organize_artifact` collision
  handling, `wait_for_download`, `clear_download_directory`,
  `artifact_exists`;
* `src/main.py` — `AIAutomationOrchestrator.get_provider`,
  `process_artifact`, `process_artifacts` (retry loop, skip logic),
  `cleanup` and `run`.

Python strings are modelled as `List Char` / `String` (Unicode code
points, as in CPython).  The filesystem is modelled as explicit state:
the artifacts directory is a list of file names, the download directory a
list of directory entries.  Real time (timeouts, `time.sleep`) is
abstracted into sequences of polling rounds.  Exceptions are modelled
with `Except` / `Option` and explicit outcome oracles.
-/

/-! ## Python character primitives

The parser uses `re` with the default (Unicode) semantics and
`str.strip` / `str.lower`.  The models below are faithful on the Basic
Latin (ASCII) and Latin-1 Supplement ranges, which is the range of
characters this development evaluates them on; `str.lower` is modelled
only on characters whose Unicode simple lowercase mapping stays in that
range (every character in this file does).
-/

/-- Python's `\s` (whitespace) on the Basic Latin and Latin-1 range:
space, tab, newline, carriage return, vertical tab, form feed and
no-break space U+00A0. -/
def pySpace (c : Char) : Bool :=
  c = ' ' || c = '\t' || c = '\n' || c = '\r' || c = '\x0b' || c = '\x0c' ||
  c.toNat = 0xa0

/-- Python's `\w` (word character) on the Basic Latin and Latin-1 range:
ASCII letters and digits, the underscore, and the Latin-1 letters
(`ª`, `µ`, `º` and the letters U+00C0–U+00FF without `×` and `÷`). -/
def pyWordChar (c : Char) : Bool :=
  c.isAlphanum || c = '_' ||
  c.toNat = 0xaa || c.toNat = 0xb5 || c.toNat = 0xba ||
  (0xc0 ≤ c.toNat && c.toNat ≤ 0xff && c.toNat ≠ 0xd7 && c.toNat ≠ 0xf7)

/-- Python's `str.lower` on one character, restricted to the Basic Latin
and Latin-1 letters whose lowercase stays in that range: `A`–`Z` and
`À`–`Þ` (without `×`) map 32 code points up, everything else is fixed. -/
def pyLower (c : Char) : Char :=
  if 65 ≤ c.toNat ∧ c.toNat ≤ 90 then Char.ofNat (c.toNat + 32)
  else if 0xc0 ≤ c.toNat ∧ c.toNat ≤ 0xde ∧ c.toNat ≠ 0xd7 then
    Char.ofNat (c.toNat + 32)
  else c

/-- Python's `str.strip()`: drop leading and trailing whitespace. -/
def pyStrip (s : List Char) : List Char :=
  ((s.dropWhile pySpace).reverse.dropWhile pySpace).reverse

/-- Replace every maximal run of characters satisfying `p` by the single
character `r` (the effect of `re.sub(r'[p]+', r, ·)`).  The Boolean
argument records whether the previous character was part of a run. -/
def collapseAux (p : Char → Bool) (r : Char) : Bool → List Char → List Char
  | _, [] => []
  | inRun, c :: rest =>
    if p c then
      if inRun then collapseAux p r true rest
      else r :: collapseAux p r true rest
    else c :: collapseAux p r false rest

/-- The effect of `re.sub(r'[p]+', r, s)` for a single-character class. -/
def collapseRuns (p : Char → Bool) (r : Char) (s : List Char) : List Char :=
  collapseAux p r false s

/-- Python's `str.endswith`, code-point-wise. -/
def pyEndsWith (s suffix_ : String) : Bool :=
  suffix_.data.isSuffixOf s.data

/-! ## A small backtracking regex engine

Both patterns of `markdown_parser.py` are sequences of literals and of
single-character classes under a quantifier (`\s+`, `(\w+)`, `(.+?)`,
`(.*?)`, `.*?`), compiled with `re.DOTALL` (so `.` matches `\n` too).
`mtF` is a standard backtracking matcher for such token sequences,
anchored at the start of the input; quantifier preference (greedy
longest-first, lazy shortest-first) follows Python's `re`.  The fuel
argument dominates the recursion depth, which decreases along the
lexicographic measure (input length, token-list length); `reMatch`
supplies enough fuel for that measure. -/

/-- One token of a compiled pattern.  `cap` records whether the
quantified group is capturing. -/
inductive Tok where
  | lit (s : List Char)
  | plusGreedy (p : Char → Bool) (cap : Bool)
  | starGreedy (p : Char → Bool) (cap : Bool)
  | plusLazy (p : Char → Bool) (cap : Bool)
  | starLazy (p : Char → Bool) (cap : Bool)

/-- If `cap` is set, prepend `c` to the first capture group of `caps`
(the group being assembled by the innermost quantifier). -/
def consHead (cap : Bool) (c : Char) (caps : List (List Char)) : List (List Char) :=
  if cap then
    match caps with
    | g :: gs => (c :: g) :: gs
    | [] => [[c]]
  else caps

/-- Push an empty capture group if `cap` is set. -/
def pushCap (cap : Bool) (caps : List (List Char)) : List (List Char) :=
  if cap then [] :: caps else caps

/-- Backtracking matcher: match the token sequence at the start of `s`,
returning the capture groups in pattern order and the remaining input. -/
def mtF : Nat → List Tok → List Char → Option (List (List Char) × List Char)
  | 0, _, _ => none
  | _ + 1, [], s => some ([], s)
  | fuel + 1, Tok.lit l :: ts, s =>
    if l.isPrefixOf s then mtF fuel ts (s.drop l.length) else none
  | fuel + 1, Tok.starLazy p cap :: ts, s =>
    match mtF fuel ts s with
    | some (caps, rest) => some (pushCap cap caps, rest)
    | none =>
      match s with
      | [] => none
      | c :: s' =>
        if p c then
          match mtF fuel (Tok.starLazy p cap :: ts) s' with
          | some (caps, rest) => some (consHead cap c caps, rest)
          | none => none
        else none
  | fuel + 1, Tok.plusLazy p cap :: ts, s =>
    match s with
    | [] => none
    | c :: s' =>
      if p c then
        match mtF fuel (Tok.starLazy p cap :: ts) s' with
        | some (caps, rest) => some (consHead cap c caps, rest)
        | none => none
      else none
  | fuel + 1, Tok.starGreedy p cap :: ts, s =>
    match
      (match s with
       | [] => none
       | c :: s' =>
         if p c then
           match mtF fuel (Tok.starGreedy p cap :: ts) s' with
           | some (caps, rest) => some (consHead cap c caps, rest)
           | none => none
         else none : Option (List (List Char) × List Char))
    with
    | some r => some r
    | none =>
      match mtF fuel ts s with
      | some (caps, rest) => some (pushCap cap caps, rest)
      | none => none
  | fuel + 1, Tok.plusGreedy p cap :: ts, s =>
    match s with
    | [] => none
    | c :: s' =>
      if p c then
        match mtF fuel (Tok.starGreedy p cap :: ts) s' with
        | some (caps, rest) => some (consHead cap c caps, rest)
        | none => none
      else none

/-- Match a pattern at the start of `s` with sufficient fuel. -/
def reMatch (toks : List Tok) (s : List Char) :
    Option (List (List Char) × List Char) :=
  mtF ((s.length + 1) * (toks.length + 1)) toks s

/-- The scanning loop of `re.findall`: find successive non-overlapping
leftmost matches, resuming after each match (advancing one character
past an empty match, as CPython does). -/
def findallF (toks : List Tok) : Nat → List Char → List (List (List Char))
  | 0, _ => []
  | fuel + 1, s =>
    match reMatch toks s with
    | some (caps, rest) =>
      if rest.length < s.length then caps :: findallF toks fuel rest
      else
        match s with
        | [] => [caps]
        | _ :: s' => caps :: findallF toks fuel s'
    | none =>
      match s with
      | [] => []
      | _ :: s' => findallF toks fuel s'

/-- `re.findall(pattern, s)`, returning the capture tuples. -/
def findall (toks : List Tok) (s : List Char) : List (List (List Char)) :=
  findallF toks (s.length + 1) s

/-- With `re.DOTALL`, `.` matches every character. -/
def anyChar (_ : Char) : Bool := true

/-! ## `markdown_parser.py` -/

/-- The `Artifact` dataclass of `markdown_parser.py` (a parsed task). -/
structure Artifact where
  name : String
  artifact_type : String
  provider : String
  output_name : String
  extension : String
  prompt : String
deriving DecidableEq, Repr

/-- The compiled structured-format pattern of `_parse_structured_format`
(`re.DOTALL`): `###\s+(.+?)\n\*\*Type:\*\*\s+(\w+)\n\*\*Provider:\*\*\s+(\w+)\n`
`\*\*Output Name:\*\*\s+(.+?)\n\*\*Extension:\*\*\s+(\w+)\n.*?```\n(.*?)\n````,
with adjacent literals merged. -/
def structuredToks : List Tok :=
  [Tok.lit "###".data, Tok.plusGreedy pySpace false, Tok.plusLazy anyChar true,
   Tok.lit "\n**Type:**".data, Tok.plusGreedy pySpace false,
   Tok.plusGreedy pyWordChar true,
   Tok.lit "\n**Provider:**".data, Tok.plusGreedy pySpace false,
   Tok.plusGreedy pyWordChar true,
   Tok.lit "\n**Output Name:**".data, Tok.plusGreedy pySpace false,
   Tok.plusLazy anyChar true,
   Tok.lit "\n**Extension:**".data, Tok.plusGreedy pySpace false,
   Tok.plusGreedy pyWordChar true,
   Tok.lit "\n".data, Tok.starLazy anyChar false, Tok.lit "```\n".data,
   Tok.starLazy anyChar true, Tok.lit "\n```".data]

/-- The compiled simple-format pattern of `_parse_simple_format`
(`re.DOTALL`): `###\s+(.+?)\n```\n(.*?)\n````. -/
def simpleToks : List Tok :=
  [Tok.lit "###".data, Tok.plusGreedy pySpace false, Tok.plusLazy anyChar true,
   Tok.lit "\n```\n".data, Tok.starLazy anyChar true, Tok.lit "\n```".data]

/-- Capture group `i` of a `findall` tuple. -/
def getCap (caps : List (List Char)) (i : Nat) : List Char :=
  caps.getD i []

/-- Build the `Artifact` of one structured-format match
(`name.strip()`, `artifact_type.strip().lower()`, `provider.strip().lower()`,
`output_name.strip()`, `extension.strip().lower()`, `prompt.strip()`). -/
def mkStructured (caps : List (List Char)) : Artifact :=
  { name := ⟨pyStrip (getCap caps 0)⟩
    artifact_type := ⟨(pyStrip (getCap caps 1)).map pyLower⟩
    provider := ⟨(pyStrip (getCap caps 2)).map pyLower⟩
    output_name := ⟨pyStrip (getCap caps 3)⟩
    extension := ⟨(pyStrip (getCap caps 4)).map pyLower⟩
    prompt := ⟨pyStrip (getCap caps 5)⟩ }

/-- `MarkdownParser._parse_structured_format`. -/
def parseStructuredFormat (content : String) : List Artifact :=
  (findall structuredToks content.data).map mkStructured

/-- Derivation of the simple-format `output_name` from the stripped
heading: `re.sub(r'[^\w\s-]', '', name.strip().lower())` followed by
`re.sub(r'[\s-]+', '_', ·)`. -/
def deriveOutputName (stripped : List Char) : List Char :=
  collapseRuns (fun c => pySpace c || c = '-') '_'
    ((stripped.map pyLower).filter
      (fun c => pyWordChar c || pySpace c || c = '-'))

/-- The loop body of `_parse_simple_format` for one match: skip it when
the stripped heading already names an artifact in the list this same
scan has built so far (`artifacts` in the Python loop — not the
structured results), otherwise append the artifact with the defaults. -/
def simpleStep (acc : List Artifact) (caps : List (List Char)) : List Artifact :=
  let nm : String := ⟨pyStrip (getCap caps 0)⟩
  if acc.any (fun a => a.name == nm) then acc
  else
    acc ++ [{ name := nm
              artifact_type := "image"
              provider := "gemini"
              output_name := ⟨deriveOutputName (pyStrip (getCap caps 0))⟩
              extension := "png"
              prompt := ⟨pyStrip (getCap caps 1)⟩ }]

/-- `MarkdownParser._parse_simple_format`: scan with the simple pattern
and run `simpleStep` over the matches in order, starting from the empty
list. -/
def parseSimpleFormat (content : String) : List Artifact :=
  (findall simpleToks content.data).foldl simpleStep []

/-- `MarkdownParser.parse`: run the structured scan, then the simple
scan, extending the instance's accumulated `self.artifacts` list (the
argument `artifacts`) with both result lists and returning it. -/
def parserParse (content : String) (artifacts : List Artifact) : List Artifact :=
  artifacts ++ parseStructuredFormat content ++ parseSimpleFormat content

/-! ## `file_manager.py`

The artifacts directory is modelled as the list of file names it
contains (`store`).  `os.path.exists(artifacts_dir/f)` is membership of
`f` in the store. -/

/-- Decimal digit character for `d < 10`. -/
def digitChar (d : Nat) : Char :=
  match d with
  | 0 => '0' | 1 => '1' | 2 => '2' | 3 => '3' | 4 => '4'
  | 5 => '5' | 6 => '6' | 7 => '7' | 8 => '8' | 9 => '9'
  | _ => '*'

/-- Decimal digit value (left inverse of `digitChar` below 10). -/
def digitVal (c : Char) : Nat :=
  match c with
  | '0' => 0 | '1' => 1 | '2' => 2 | '3' => 3 | '4' => 4
  | '5' => 5 | '6' => 6 | '7' => 7 | '8' => 8 | '9' => 9
  | _ => 0

/-- Most-significant-first decimal digits of `n` (fuel-structural; the
fuel dominates the number of divisions by 10). -/
def natDecAux : Nat → Nat → List Char
  | 0, _ => []
  | fuel + 1, n =>
    if n < 10 then [digitChar n]
    else natDecAux fuel (n / 10) ++ [digitChar (n % 10)]

/-- Python's `str(n)` for a natural number (decimal, no sign). -/
def pyStr (n : Nat) : String :=
  ⟨natDecAux (n + 1) n⟩

/-- Read a decimal digit string back (left inverse of `natDecAux`). -/
def decToNat (l : List Char) : Nat :=
  l.foldl (fun a c => a * 10 + digitVal c) 0

/-- The first candidate destination file name of `rename_and_move`:
`f"{artifact_name}.{extension}"`. -/
def destName0 (name ext : String) : String :=
  name ++ "." ++ ext

/-- The suffixed destination file name tried at loop counter `n`:
`f"{base_name}_{counter}.{extension}"`. -/
def suffixedName (name ext : String) (n : Nat) : String :=
  name ++ "_" ++ pyStr n ++ "." ++ ext

theorem digitVal_digitChar {d : Nat} (h : d < 10) : digitVal (digitChar d) = d := by
  interval_cases d <;> rfl

theorem decToNat_natDecAux : ∀ fuel n, n < fuel →
    decToNat (natDecAux fuel n) = n := by
  intro fuel
  induction fuel with
  | zero => intro n h; omega
  | succ f ih =>
    intro n h
    by_cases h10 : n < 10
    · simp [natDecAux, h10, decToNat, List.foldl, digitVal_digitChar h10]
    · have hdiv : n / 10 < f := by omega
      simp only [natDecAux, if_neg h10, decToNat, List.foldl_append]
      have := ih (n / 10) hdiv
      simp only [decToNat] at this
      rw [this]
      simp [List.foldl, digitVal_digitChar (Nat.mod_lt n (by omega))]
      omega

theorem pyStr_injective : Function.Injective pyStr := by
  intro a b h
  have ha := decToNat_natDecAux (a + 1) a (Nat.lt_succ_self a)
  have hb := decToNat_natDecAux (b + 1) b (Nat.lt_succ_self b)
  have hdata : natDecAux (a + 1) a = natDecAux (b + 1) b :=
    congrArg String.data h
  rw [hdata] at ha
  omega

theorem suffixedName_injective (name ext : String) :
    Function.Injective (suffixedName name ext) := by
  intro a b h
  apply pyStr_injective
  have hd : (suffixedName name ext a).data = (suffixedName name ext b).data :=
    congrArg String.data h
  simp only [suffixedName, String.data_append, List.append_assoc] at hd
  have h1 := List.append_cancel_left hd
  have h2 := List.append_cancel_left h1
  have h3 := List.append_cancel_right h2
  exact String.ext h3

/-- The `while os.path.exists(dest_path)` loop of `rename_and_move`
terminates: some suffixed name with positive counter is unoccupied,
because the suffixed names are pairwise distinct and the store is
finite. -/
theorem exists_free (store : List String) (name ext : String) :
    ∃ n, 0 < n ∧ suffixedName name ext n ∉ store := by
  by_contra hcon
  push_neg at hcon
  have hsub : ((List.range (store.length + 1)).map
      (fun i => suffixedName name ext (i + 1))) ⊆ store := by
    intro x hx
    rcases List.mem_map.mp hx with ⟨i, _, rfl⟩
    exact hcon _ (Nat.succ_pos i)
  have hnd : ((List.range (store.length + 1)).map
      (fun i => suffixedName name ext (i + 1))).Nodup := by
    refine List.Nodup.map ?_ (List.nodup_range _)
    intro a b hab
    have := suffixedName_injective name ext hab
    omega
  have hle := (List.subperm_of_subset hnd hsub).length_le
  simp at hle

/-- `FileManager.rename_and_move`, as a choice of destination file name:
take `name.ext` if unoccupied, otherwise the first unoccupied
`name_N.ext` with `N` counted up from 1 (the value the while loop
terminates with). -/
def renameAndMove (store : List String) (name ext : String) : String :=
  if destName0 name ext ∈ store then
    suffixedName name ext (Nat.find (exists_free store name ext))
  else destName0 name ext

/-- `FileManager.organize_artifact` / the effect of `shutil.move` on the
artifacts directory: the destination name is added to the store. -/
def organizeArtifact (store : List String) (name ext : String) :
    List String × String :=
  let d := renameAndMove store name ext
  (store ++ [d], d)

/-- `FileManager.artifact_exists`: `os.path.exists` of
`artifacts_dir/name.ext`. -/
def artifactExists (store : List String) (name ext : String) : Bool :=
  store.contains (destName0 name ext)

/-! ### `wait_for_download`

One iteration of the polling loop observes the download directory.  An
observation is either an exception raised by one of the `os` calls of
the iteration (caught by the `except` clause, which logs and continues)
or the list of entries, each carrying the `isfile` answer, the creation
time, and the two sizes `getsize` would report at the two stability
checks of that iteration.  The `timeout` bounds the number of
iterations, so a run of the loop is a finite list of observations. -/

/-- One directory entry as observed during a polling iteration. -/
structure FileInfo where
  name : String
  isFile : Bool
  ctime : Nat
  size1 : Nat
  size2 : Nat
deriving DecidableEq, Repr

/-- Does the name carry one of the temporary-download suffixes filtered
out by `wait_for_download`? -/
def isTempName (n : String) : Bool :=
  pyEndsWith n ".crdownload" || pyEndsWith n ".tmp" || pyEndsWith n ".part"

/-- Python's `max(files, key=...)` (first maximum wins on ties),
`none` on an empty list. -/
def latestByCtime (files : List FileInfo) : Option FileInfo :=
  files.foldl
    (fun acc f =>
      match acc with
      | none => some f
      | some g => if f.ctime > g.ctime then some f else some g)
    none

/-- The first two filters of one polling iteration: regular files
without a temporary-download suffix. -/
def nonTempFiles (entries : List FileInfo) : List FileInfo :=
  (entries.filter (fun f => f.isFile)).filter (fun f => !isTempName f.name)

/-- All filters of one polling iteration: `nonTempFiles`, and — when
`extension` is truthy (`if extension:` is false for both `None` and
`""`) — the requested `.{extension}` suffix. -/
def downloadCandidates : Option String → List FileInfo → List FileInfo
  | none, entries => nonTempFiles entries
  | some e, entries =>
    if e = "" then nonTempFiles entries
    else (nonTempFiles entries).filter (fun f => pyEndsWith f.name ("." ++ e))

/-- One polling iteration of `wait_for_download`: an exception anywhere
in the iteration is caught (yielding no result); otherwise pick the
most-recently-created candidate and return its path when its size is
stable and positive. -/
def pollRound (dir : String) (ext : Option String) :
    Except Unit (List FileInfo) → Option String
  | Except.error _ => none
  | Except.ok entries =>
    match latestByCtime (downloadCandidates ext entries) with
    | none => none
    | some f =>
      if f.size1 = f.size2 ∧ 0 < f.size1 then some (dir ++ "/" ++ f.name)
      else none

/-- `FileManager.wait_for_download`: poll until an iteration yields a
stable download or the observations (the timeout) run out. -/
def waitForDownload (dir : String) (ext : Option String) :
    List (Except Unit (List FileInfo)) → Option String
  | [] => none
  | obs :: rest =>
    match pollRound dir ext obs with
    | some p => some p
    | none => waitForDownload dir ext rest

/-! ### `clear_download_directory`

The download directory is a list of entries; a directory entry carries
its (unmodelled further) contents.  `os.remove` may raise on any file;
the `try` of `clear_download_directory` wraps the whole listing loop,
so the first raising removal aborts the loop, and the exception is
logged and swallowed. -/

/-- An entry of the download directory. -/
inductive DirEntry where
  | file (name : String)
  | dir (name : String) (contents : List String)
deriving DecidableEq, Repr

/-- Is the entry a regular file (`os.path.isfile`)? -/
def isFileEntry : DirEntry → Bool
  | DirEntry.file _ => true
  | DirEntry.dir _ _ => false

/-- The `for file in os.listdir(...)` loop body of
`clear_download_directory` without its surrounding `try`: remove each
regular file in listing order; a raising `os.remove` (oracle `err`)
aborts the loop, carrying the directory state at that point. -/
def removeFilesLoop (err : String → Bool) :
    List DirEntry → Except (List DirEntry) (List DirEntry)
  | [] => Except.ok []
  | DirEntry.file n :: rest =>
    if err n then Except.error (DirEntry.file n :: rest)
    else removeFilesLoop err rest
  | DirEntry.dir n c :: rest =>
    match removeFilesLoop err rest with
    | Except.ok l => Except.ok (DirEntry.dir n c :: l)
    | Except.error l => Except.error (DirEntry.dir n c :: l)

/-- `FileManager.clear_download_directory`: run the removal loop under
the `try`; a raised listing error (`listErr`) or removal error is
logged and swallowed, leaving the directory in whatever state the loop
reached. -/
def clearDownloadDirectory (listErr : Bool) (err : String → Bool)
    (fs : List DirEntry) : List DirEntry :=
  if listErr then fs
  else
    match removeFilesLoop err fs with
    | Except.ok l => l
    | Except.error l => l

/-! ## `main.py` — the orchestrator

A `ProviderHandle` is the browser session a provider object owns once
`init_driver` has succeeded; handles are identified by the order of
their construction.  An `Env` oracle fixes the outcome of each handle
initialisation (`init_driver` + `login`), of each capability step of
each `process_task` attempt, and of each `close` call.  The run state
threads the provider cache (`self.providers`, an insertion-ordered
dict), the artifacts store, the three summary counters, and an event
trace. -/

/-- The capability steps of `process_task`, in call order; `organize`
stands for the final `organize_artifact` call (a `FileManager` step,
not a provider method). -/
inductive CapStep where
  | selectMode
  | sendPrompt
  | waitCompletion
  | download
  | organize
deriving DecidableEq, Repr

/-- Events recorded along a run. -/
inductive PEvent where
  /-- `init_driver` succeeded for backend `b`: browser session `h` now exists. -/
  | create (b : String) (h : Nat)
  /-- `process_task` was entered for task `i`, attempt `k` (1-based). -/
  | attemptStart (i : Nat) (k : Nat)
  /-- provider capability method `s` (or the organize step) was invoked
  on handle `h` for task `i`. -/
  | cap (i : Nat) (h : Nat) (s : CapStep)
  /-- the fixed 10s retry backoff was observed after attempt `k` of task `i`. -/
  | backoff (i : Nat) (k : Nat)
  /-- task `i` was marked Skipped. -/
  | skippedTask (i : Nat)
  /-- `close()` was invoked on handle `h`. -/
  | closeCall (h : Nat)
deriving DecidableEq, Repr

/-- Outcome of constructing and initialising a provider object. -/
inductive InitOutcome where
  /-- `init_driver` and `login` both succeeded. -/
  | ok
  /-- `init_driver` raised: no browser session was created. -/
  | failInit
  /-- `init_driver` succeeded but `login` raised: the session exists
  but `get_provider` propagates the exception. -/
  | failLogin
deriving DecidableEq, Repr

/-- Environment oracle for a run. -/
structure Env where
  /-- outcome of initialising the `h`-th constructed provider object. -/
  initOutcome : Nat → InitOutcome
  /-- the first capability step of attempt `k` of task `i` that raises,
  if any (`none` = the whole attempt succeeds). -/
  stepFail : Nat → Nat → Option CapStep
  /-- whether `close()` raises on handle `h`. -/
  closeFails : Nat → Bool

/-- The configuration fields the claims depend on. -/
structure Config where
  skipExisting : Bool
  retryAttempts : Nat

/-- Orchestrator run state. -/
structure OState where
  /-- `self.providers`: backend name to handle, in insertion order. -/
  providers : List (String × Nat)
  /-- number of provider objects constructed so far (handle ids are fresh). -/
  nextId : Nat
  /-- file names in the artifacts directory. -/
  store : List String
  successful : Nat
  failed : Nat
  skipped : Nat
  trace : List PEvent
deriving DecidableEq, Repr

/-- Dictionary lookup in `self.providers`. -/
def lookupProv : List (String × Nat) → String → Option Nat
  | [], _ => none
  | (b', h) :: rest, b => if b' = b then some h else lookupProv rest b

/-- The three backend names `get_provider` accepts; any other name
raises `ValueError`. -/
def knownBackend (b : String) : Bool :=
  b = "gemini" || b = "chatgpt" || b = "claude"

/-- `AIAutomationOrchestrator.get_provider`: return the cached handle if
present; otherwise construct a provider object, initialise its driver
and log in, and cache it.  `none` means the call raised (unknown
backend, or `init_driver`/`login` failed); a `failLogin` leaves a live
session behind that is never cached. -/
def getProvider (env : Env) (st : OState) (b : String) : OState × Option Nat :=
  match lookupProv st.providers b with
  | some h => (st, some h)
  | none =>
    if knownBackend b then
      let h := st.nextId
      match env.initOutcome h with
      | InitOutcome.failInit => ({ st with nextId := h + 1 }, none)
      | InitOutcome.failLogin =>
        ({ st with nextId := h + 1,
                   trace := st.trace ++ [PEvent.create b h] }, none)
      | InitOutcome.ok =>
        ({ st with nextId := h + 1,
                   trace := st.trace ++ [PEvent.create b h],
                   providers := st.providers ++ [(b, h)] }, some h)
    else (st, none)

/-- The capability events emitted by one `process_task` attempt: the
steps run in order and the failing step (which is still invoked) is the
last one; the organize step is not a provider method and emits no
capability event. -/
def capList (i h : Nat) (fail : Option CapStep) : List PEvent :=
  match fail with
  | some CapStep.selectMode => [PEvent.cap i h CapStep.selectMode]
  | some CapStep.sendPrompt =>
    [PEvent.cap i h CapStep.selectMode, PEvent.cap i h CapStep.sendPrompt]
  | some CapStep.waitCompletion =>
    [PEvent.cap i h CapStep.selectMode, PEvent.cap i h CapStep.sendPrompt,
     PEvent.cap i h CapStep.waitCompletion]
  | _ =>
    [PEvent.cap i h CapStep.selectMode, PEvent.cap i h CapStep.sendPrompt,
     PEvent.cap i h CapStep.waitCompletion, PEvent.cap i h CapStep.download]

/-- `AIAutomationOrchestrator.process_task` at attempt `k` of task `i`:
acquire the provider, clear the staging directory, then select mode,
send the prompt, await completion, download, and organize; any raise is
caught and turned into `False`. -/
def processArtifact (env : Env) (st : OState) (i : Nat) (a : Artifact)
    (k : Nat) : OState × Bool :=
  match getProvider env
      { st with trace := st.trace ++ [PEvent.attemptStart i k] } a.provider with
  | (st', none) => (st', false)
  | (st', some h) =>
    match env.stepFail i k with
    | some s =>
      ({ st' with trace := st'.trace ++ capList i h (some s) }, false)
    | none =>
      ({ st' with
          trace := st'.trace ++ capList i h none,
          store := st'.store ++
            [renameAndMove st'.store a.output_name a.extension] }, true)

/-- The `for attempt in range(1, retry_attempts + 1)` loop of
`process_artifacts`, with `rem` attempts remaining and `k` the current
attempt number: stop at the first success; pause the fixed backoff
after a failed attempt that is not the last. -/
def retryGo (env : Env) (i : Nat) (a : Artifact) :
    Nat → Nat → OState → OState × Bool
  | 0, _, st => (st, false)
  | rem + 1, k, st =>
    match processArtifact env st i a k with
    | (st', true) => (st', true)
    | (st', false) =>
      if rem = 0 then (st', false)
      else retryGo env i a rem (k + 1)
        { st' with trace := st'.trace ++ [PEvent.backoff i k] }

/-- The body of the `process_artifacts` loop for task `i`: skip when
`skip_existing` holds and the artifact key already exists, otherwise
run the retry loop and count the task once as Succeeded or Failed. -/
def processOne (env : Env) (cfg : Config) (st : OState) (i : Nat)
    (a : Artifact) : OState :=
  if cfg.skipExisting && artifactExists st.store a.output_name a.extension then
    { st with skipped := st.skipped + 1,
              trace := st.trace ++ [PEvent.skippedTask i] }
  else
    match retryGo env i a cfg.retryAttempts 1 st with
    | (st', true) => { st' with successful := st'.successful + 1 }
    | (st', false) => { st' with failed := st'.failed + 1 }

/-- `process_artifacts`, processing tasks in order starting at index `i`. -/
def processFrom (env : Env) (cfg : Config) :
    Nat → List Artifact → OState → OState
  | _, [], st => st
  | i, a :: rest, st => processFrom env cfg (i + 1) rest (processOne env cfg st i a)

/-- `AIAutomationOrchestrator.process_artifacts`. -/
def processArtifacts (env : Env) (cfg : Config) (st : OState)
    (arts : List Artifact) : OState :=
  processFrom env cfg 0 arts st

/-- One iteration of the `cleanup` loop: invoke `close()` on the cached
provider; the surrounding `try`/`except` logs a raising close and
continues, so both outcomes leave the same state. -/
def closeOne (env : Env) (st : OState) (p : String × Nat) : OState :=
  let st' := { st with trace := st.trace ++ [PEvent.closeCall p.2] }
  if env.closeFails p.2 then st' else st'

/-- `AIAutomationOrchestrator.cleanup`: close every cached provider in
dictionary order, one `try`/`except` per provider. -/
def cleanup (env : Env) (st : OState) : OState :=
  st.providers.foldl (closeOne env) st

/-- The initial run state over a given artifacts directory. -/
def initState (store0 : List String) : OState :=
  { providers := [], nextId := 0, store := store0,
    successful := 0, failed := 0, skipped := 0, trace := [] }

/-- `AIAutomationOrchestrator.run`: parse (`Except.error` models a
raising `parser.parse()`), return early on an empty task list, else
process all tasks; the `finally` clause runs `cleanup` on every path,
including the fatal-error path and the early return. -/
def runOrch (env : Env) (cfg : Config)
    (parseRes : Except Unit (List Artifact)) (store0 : List String) : OState :=
  match parseRes with
  | Except.error _ => cleanup env (initState store0)
  | Except.ok arts =>
    if arts.isEmpty then cleanup env (initState store0)
    else cleanup env (processArtifacts env cfg (initState store0) arts)

/-! ### Trace projections used by the claims -/

/-- The attempt numbers recorded for task `i`, in order. -/
def attemptsOf (i : Nat) (t : List PEvent) : List Nat :=
  t.filterMap fun e =>
    match e with
    | PEvent.attemptStart j k => if j = i then some k else none
    | _ => none

/-- The backoff positions recorded for task `i`, in order. -/
def backoffsOf (i : Nat) (t : List PEvent) : List Nat :=
  t.filterMap fun e =>
    match e with
    | PEvent.backoff j k => if j = i then some k else none
    | _ => none

/-- The handles created for backend `b`, in order. -/
def createsOf (b : String) (t : List PEvent) : List Nat :=
  t.filterMap fun e =>
    match e with
    | PEvent.create b' h => if b' = b then some h else none
    | _ => none

/-- How many times `close()` was invoked on handle `h`. -/
def closeCount (h : Nat) (t : List PEvent) : Nat :=
  t.count (PEvent.closeCall h)

/-! ## Helper lemmas -/

theorem mem_of_mem_dropWhile {p : Char → Bool} {l : List Char} {c : Char}
    (h : c ∈ l.dropWhile p) : c ∈ l :=
  (List.dropWhile_sublist p).subset h

theorem mem_of_mem_pyStrip {s : List Char} {c : Char} (h : c ∈ pyStrip s) :
    c ∈ s := by
  unfold pyStrip at h
  rw [List.mem_reverse] at h
  have h1 := mem_of_mem_dropWhile h
  rw [List.mem_reverse] at h1
  exact mem_of_mem_dropWhile h1

theorem mem_collapseAux {p : Char → Bool} {r : Char} :
    ∀ {l : List Char} {b : Bool} {c : Char},
      c ∈ collapseAux p r b l → c = r ∨ (c ∈ l ∧ p c = false) := by
  intro l
  induction l with
  | nil => intro b c h; simp [collapseAux] at h
  | cons x xs ih =>
    intro b c h
    unfold collapseAux at h
    by_cases hp : p x
    · rw [if_pos hp] at h
      rcases b with _ | _
      · simp only [if_neg (by simp : ¬(false = true))] at h
        rcases List.mem_cons.mp h with rfl | h'
        · exact Or.inl rfl
        · rcases ih h' with h'' | ⟨hm, hpc⟩
          · exact Or.inl h''
          · exact Or.inr ⟨List.mem_cons_of_mem _ hm, hpc⟩
      · simp only [if_pos rfl] at h
        rcases ih h with h'' | ⟨hm, hpc⟩
        · exact Or.inl h''
        · exact Or.inr ⟨List.mem_cons_of_mem _ hm, hpc⟩
    · rw [if_neg hp] at h
      rcases List.mem_cons.mp h with rfl | h'
      · exact Or.inr ⟨List.mem_cons_self _ _, by simpa using hp⟩
      · rcases ih h' with h'' | ⟨hm, hpc⟩
        · exact Or.inl h''
        · exact Or.inr ⟨List.mem_cons_of_mem _ hm, hpc⟩

/-- Transfer a decidable character property from the 128 ASCII code
points to every ASCII character. -/
theorem ascii_case (P : Char → Prop) [DecidablePred P]
    (h : ∀ n, n < 128 → P (Char.ofNat n)) :
    ∀ c : Char, c.toNat < 128 → P c := by
  intro c hc
  have := h c.toNat hc
  rwa [Char.ofNat_toNat] at this

/-- Characters allowed by the claim for a derived simple-format
`output_name`: lower-case ASCII letters, ASCII digits, underscore. -/
def slugChar (c : Char) : Bool :=
  ('a' ≤ c && c ≤ 'z') || ('0' ≤ c && c ≤ '9') || c = '_'

theorem pyLower_word_slug :
    ∀ c : Char, c.toNat < 128 →
      pyWordChar (pyLower c) = true → slugChar (pyLower c) = true := by
  refine ascii_case (fun c => pyWordChar (pyLower c) = true → slugChar (pyLower c) = true) ?_
  decide

/-! ## Claims -/

/-- A document whose single heading block carries the full structured
metadata — and therefore also matches the minimal-format pattern
(`re.DOTALL` lets the minimal scan's lazy `(.+?)` heading group swallow
the metadata lines). -/
def docStructured : String :=
  "### A\n**Type:** image\n**Provider:** gemini\n**Output Name:** a\n**Extension:** png\n\n```\np\n```\n"

/-- A document with one minimal-format entry. -/
def docMinimal : String := "### A\n```\np\n```\n"

/-- **C1.** The claim states that a heading block captured by the
structured scan yields exactly one task, the structured one, and is
never duplicated by the minimal scan.  The code violates this: the
dedupe check of `_parse_simple_format` tests the heading against the
local `artifacts` list of that same scan (which starts empty), not
against the structured results, so on `docStructured` — one heading,
both formats — `parse` returns two tasks: the structured one and a
minimal-scan duplicate whose heading has swallowed the metadata lines.
The comment above the check ("Skip if this was already parsed as
structured format") documents the intended behaviour, so this is a slip
in the code. -/
theorem C1_structured_heading_duplicated :
    parseStructuredFormat docStructured =
      [{ name := "A", artifact_type := "image", provider := "gemini",
         output_name := "a", extension := "png", prompt := "p" }] ∧
    parserParse docStructured [] =
      [{ name := "A", artifact_type := "image", provider := "gemini",
         output_name := "a", extension := "png", prompt := "p" },
       { name := "A\n**Type:** image\n**Provider:** gemini\n**Output Name:** a\n**Extension:** png",
         artifact_type := "image", provider := "gemini",
         output_name := "a_type_image_provider_gemini_output_name_a_extension_png",
         extension := "png", prompt := "p" }] ∧
    (parserParse docStructured []).length ≠ 1 := by
  refine ⟨by decide, by decide, by decide⟩

/-- **C6 (counterexample).** Parsing is not idempotent as claimed: a
second `parse()` call on the same parser instance extends the
accumulated `self.artifacts` again, so it does not return the same
sequence as the first call. -/
theorem C6_second_parse_differs :
    parserParse docMinimal (parserParse docMinimal []) ≠
      parserParse docMinimal [] := by
  decide

/-- **C6 (amended).** `parse()` accumulates: a call returns the
instance's previous list followed by the document's scan results, so a
second call on the same instance returns two copies of the document's
tasks (while parsing with a fresh instance is deterministic, the second
call's result equals the first only for documents with no tasks). -/
theorem C6_parse_accumulates (content : String) (st : List Artifact) :
    parserParse content st = st ++ parserParse content [] ∧
    parserParse content (parserParse content []) =
      parserParse content [] ++ parserParse content [] := by
  unfold parserParse
  simp [List.append_assoc]

/-- A document with one minimal entry whose heading contains the
Latin-1 letter `é` (a word character for Python's Unicode `\w`). -/
def docCafe : String := "### Café\n```\np\n```\n"

/-- The spec's worked example for the minimal-format `output_name`. -/
def docCoverArt : String := "### Cover Art!\n```\nx\n```\n"

/-- **C7 (counterexample).** The claim says every derived minimal-format
`output_name` contains only `[a-z0-9_]`.  Python's `\w` is
Unicode-aware, so a non-ASCII letter in the heading survives both
substitutions: the heading `Café` yields `output_name == "café"`,
which contains `é`. -/
theorem C7_unicode_output_name :
    (parserParse docCafe []).map Artifact.output_name = ["café"] ∧
    ("café" : String).data.all slugChar = false := by
  exact ⟨by decide, by decide⟩

/-- Every artifact the simple scan produces derives its `output_name`
from its (stripped) heading by `deriveOutputName`. -/
theorem parseSimpleFormat_output_name {content : String} {a : Artifact}
    (ha : a ∈ parseSimpleFormat content) :
    a.output_name.data = deriveOutputName a.name.data := by
  have key : ∀ (L : List (List (List Char))) (acc : List Artifact),
      (∀ x ∈ acc, x.output_name.data = deriveOutputName x.name.data) →
      ∀ x ∈ L.foldl simpleStep acc,
        x.output_name.data = deriveOutputName x.name.data := by
    intro L
    induction L with
    | nil => intro acc hacc x hx; exact hacc x hx
    | cons caps L ih =>
      intro acc hacc x hx
      refine ih _ ?_ x hx
      intro y hy
      unfold simpleStep at hy
      by_cases hc : acc.any (fun b => b.name == (⟨pyStrip (getCap caps 0)⟩ : String))
      · rw [if_pos hc] at hy; exact hacc y hy
      · rw [if_neg hc] at hy
        rcases List.mem_append.mp hy with h1 | h2
        · exact hacc y h1
        · rcases List.mem_singleton.mp h2 with rfl
          rfl
  exact key _ [] (by intro x hx; simp at hx) a ha

/-- **C7 (amended).** For a minimal-format entry the `output_name` is
obtained from the stripped heading by `deriveOutputName` (lower-casing,
dropping non-word/non-space/non-hyphen characters, collapsing
whitespace/hyphen runs to single underscores); whenever the heading is
ASCII the result contains only `[a-z0-9_]`, and the heading
`"Cover Art!"` yields `output_name = "cover_art"`.  (For non-ASCII
headings, Unicode word characters pass through — see the
counterexample.) -/
theorem C7_ascii_heading_slug :
    (∀ content : String, ∀ a ∈ parseSimpleFormat content,
        a.output_name.data = deriveOutputName a.name.data) ∧
    (∀ nm : List Char, (∀ c ∈ nm, c.toNat < 128) →
        (deriveOutputName nm).all slugChar = true) ∧
    (parserParse docCoverArt []).map Artifact.output_name = ["cover_art"] := by
  refine ⟨fun content a ha => parseSimpleFormat_output_name ha, ?_, by decide⟩
  intro nm hnm
  rw [List.all_eq_true]
  intro c hc
  unfold deriveOutputName collapseRuns at hc
  rcases mem_collapseAux hc with rfl | ⟨hm, hp⟩
  · decide
  · rw [List.mem_filter] at hm
    obtain ⟨hmap, hq⟩ := hm
    rcases List.mem_map.mp hmap with ⟨c0, hc0, rfl⟩
    have hps : pySpace (pyLower c0) = false ∧
        (decide (pyLower c0 = '-')) = false := by
      simpa [Bool.or_eq_false_iff] using hp
    have hword : pyWordChar (pyLower c0) = true := by
      simp only [hps.1, hps.2, Bool.or_false] at hq
      exact hq
    exact pyLower_word_slug c0 (hnm c0 hc0) hword

/-- Witness for C7: the amended theorem applied at the heading
`"Cover Art!"`, whose characters are all ASCII. -/
theorem C7_ascii_heading_slug_witness :
    (∀ c ∈ ("Cover Art!" : String).data, c.toNat < 128) ∧
    (deriveOutputName ("Cover Art!" : String).data).all slugChar = true :=
  ⟨by decide, C7_ascii_heading_slug.2.1 ("Cover Art!" : String).data (by decide)⟩

/-- **C3.** `rename_and_move` never overwrites: the chosen destination
name is never one already in the store.  When the key `name.ext` is
occupied, the chosen name is `name_N.ext` for the least `N ≥ 1` whose
key is unoccupied (every smaller positive counter is occupied) — the
sole collision policy.  Concretely, organizing `("foo", "png")` against
an existing `foo.png` yields `foo_1.png`, and doing so again yields
`foo_2.png`. -/
theorem C3_collision_suffix (store : List String) (name ext : String) :
    (renameAndMove store name ext ∉ store) ∧
    (destName0 name ext ∈ store →
      ∃ N, 0 < N ∧ renameAndMove store name ext = suffixedName name ext N ∧
        suffixedName name ext N ∉ store ∧
        ∀ m, 0 < m → m < N → suffixedName name ext m ∈ store) ∧
    (organizeArtifact ["foo.png"] "foo" "png").2 = "foo_1.png" ∧
    (organizeArtifact (organizeArtifact ["foo.png"] "foo" "png").1
        "foo" "png").2 = "foo_2.png" := by
  have find1 : Nat.find (exists_free ["foo.png"] "foo" "png") = 1 := by
    rw [Nat.find_eq_iff]
    refine ⟨⟨by decide, by decide⟩, ?_⟩
    intro n hn
    interval_cases n
    simp
  have step1 : renameAndMove ["foo.png"] "foo" "png" = "foo_1.png" := by
    rw [renameAndMove, if_pos (by decide), find1]
    decide
  have store2 : (organizeArtifact ["foo.png"] "foo" "png").1 =
      ["foo.png", "foo_1.png"] := by
    simp [organizeArtifact, step1]
  have find2 : Nat.find (exists_free ["foo.png", "foo_1.png"] "foo" "png") = 2 := by
    rw [Nat.find_eq_iff]
    refine ⟨⟨by decide, by decide⟩, ?_⟩
    intro n hn
    interval_cases n
    · simp
    · intro hcon
      exact absurd hcon.2 (by decide)
  refine ⟨?_, ?_, ?_, ?_⟩
  · unfold renameAndMove
    split
    · exact (Nat.find_spec (exists_free store name ext)).2
    · assumption
  · intro hocc
    refine ⟨Nat.find (exists_free store name ext),
      (Nat.find_spec (exists_free store name ext)).1, ?_,
      (Nat.find_spec (exists_free store name ext)).2, ?_⟩
    · rw [renameAndMove, if_pos hocc]
    · intro m hm hlt
      have := Nat.find_min (exists_free store name ext) hlt
      push_neg at this
      exact this hm
  · simp [organizeArtifact, step1]
  · rw [store2]
    show renameAndMove ["foo.png", "foo_1.png"] "foo" "png" = "foo_2.png"
    rw [renameAndMove, if_pos (by decide), find2]
    decide

/-- Witness for C3: the collision branch applied at the concrete store
`["foo.png"]`, whose key `foo.png` is occupied. -/
theorem C3_collision_suffix_witness :
    destName0 "foo" "png" ∈ ["foo.png"] ∧
    (∃ N, 0 < N ∧
      renameAndMove ["foo.png"] "foo" "png" = suffixedName "foo" "png" N ∧
      suffixedName "foo" "png" N ∉ ["foo.png"] ∧
      ∀ m, 0 < m → m < N → suffixedName "foo" "png" m ∈ ["foo.png"]) :=
  ⟨by decide, (C3_collision_suffix ["foo.png"] "foo" "png").2.1 (by decide)⟩

/-- The directory state an aborted or completed removal loop leaves
behind (the payload of either `Except` constructor). -/
def exceptVal : Except (List DirEntry) (List DirEntry) → List DirEntry
  | Except.ok l => l
  | Except.error l => l

theorem clearDownloadDirectory_eq (listErr : Bool) (err : String → Bool)
    (fs : List DirEntry) :
    clearDownloadDirectory listErr err fs =
      if listErr then fs else exceptVal (removeFilesLoop err fs) := by
  unfold clearDownloadDirectory
  by_cases h : listErr
  · rw [if_pos h, if_pos h]
  · rw [if_neg h, if_neg h]
    cases removeFilesLoop err fs <;> rfl

theorem removeFilesLoop_filter (err : String → Bool) :
    ∀ fs : List DirEntry,
      (exceptVal (removeFilesLoop err fs)).filter (fun e => !isFileEntry e) =
        fs.filter (fun e => !isFileEntry e) := by
  intro fs
  induction fs with
  | nil => rfl
  | cons e rest ih =>
    cases e with
    | file n =>
      by_cases h : err n
      · simp [removeFilesLoop, h, exceptVal, isFileEntry]
      · simpa [removeFilesLoop, h, isFileEntry] using ih
    | dir n c =>
      cases h : removeFilesLoop err rest with
      | ok l =>
        rw [h] at ih
        simpa [removeFilesLoop, h, exceptVal, isFileEntry] using ih
      | error l =>
        rw [h] at ih
        simpa [removeFilesLoop, h, exceptVal, isFileEntry] using ih

theorem removeFilesLoop_subset (err : String → Bool) :
    ∀ fs : List DirEntry, ∀ e ∈ exceptVal (removeFilesLoop err fs), e ∈ fs := by
  intro fs
  induction fs with
  | nil => intro e he; simp [removeFilesLoop, exceptVal] at he
  | cons x rest ih =>
    intro e he
    cases x with
    | file n =>
      by_cases h : err n
      · simp only [removeFilesLoop, if_pos h, exceptVal] at he
        exact he
      · simp only [removeFilesLoop, if_neg h] at he
        exact List.mem_cons_of_mem _ (ih e he)
    | dir n c =>
      cases h : removeFilesLoop err rest with
      | ok l =>
        simp only [removeFilesLoop, h, exceptVal] at he
        rcases List.mem_cons.mp he with rfl | he'
        · exact List.mem_cons_self _ _
        · exact List.mem_cons_of_mem _ (ih e (by simpa [exceptVal, h] using he'))
      | error l =>
        simp only [removeFilesLoop, h, exceptVal] at he
        rcases List.mem_cons.mp he with rfl | he'
        · exact List.mem_cons_self _ _
        · exact List.mem_cons_of_mem _ (ih e (by simpa [exceptVal, h] using he'))

theorem removeFilesLoop_ok (err : String → Bool) (herr : ∀ n, err n = false) :
    ∀ fs : List DirEntry,
      removeFilesLoop err fs =
        Except.ok (fs.filter (fun e => !isFileEntry e)) := by
  intro fs
  induction fs with
  | nil => rfl
  | cons x rest ih =>
    cases x with
    | file n => simp [removeFilesLoop, herr n, ih, isFileEntry]
    | dir n c => simp [removeFilesLoop, ih, isFileEntry]

/-- **C10.** `clear_download_directory` removes only the regular files
directly inside the staging directory: the subdirectory entries (with
their contents) are exactly preserved, everything in the result was
already present, anything it drops is a regular file, and when nothing
raises it removes precisely the regular files.  The function is total
over arbitrary listing/removal error oracles: any error is caught,
logged and swallowed, leaving the directory in the state the loop
reached. -/
theorem C10_clear_staging (listErr : Bool) (err : String → Bool)
    (fs : List DirEntry) :
    ((clearDownloadDirectory listErr err fs).filter (fun e => !isFileEntry e) =
      fs.filter (fun e => !isFileEntry e)) ∧
    (∀ e ∈ clearDownloadDirectory listErr err fs, e ∈ fs) ∧
    (∀ e ∈ fs, e ∉ clearDownloadDirectory listErr err fs →
      isFileEntry e = true) ∧
    (listErr = false → (∀ n, err n = false) →
      clearDownloadDirectory listErr err fs =
        fs.filter (fun e => !isFileEntry e)) := by
  rw [clearDownloadDirectory_eq]
  by_cases hl : listErr
  · rw [if_pos hl]
    refine ⟨rfl, fun e he => he, fun e he hne => absurd he hne, ?_⟩
    intro hfalse
    exact absurd hl (by simp [hfalse])
  · rw [if_neg hl]
    refine ⟨removeFilesLoop_filter err fs, removeFilesLoop_subset err fs, ?_, ?_⟩
    · intro e he hne
      by_contra hfile
      have hmem : e ∈ fs.filter (fun e => !isFileEntry e) :=
        List.mem_filter.mpr ⟨he, by simp [Bool.not_eq_true] at hfile; simp [hfile]⟩
      rw [← removeFilesLoop_filter err fs] at hmem
      exact hne (List.mem_filter.mp hmem).1
    · intro _ herr
      rw [removeFilesLoop_ok err herr fs]
      rfl

/-- Witness for C10: the no-error case at a concrete staging directory
with one file and one subdirectory. -/
theorem C10_clear_staging_witness :
    clearDownloadDirectory false (fun _ => false)
        [DirEntry.file "a.png", DirEntry.dir "sub" ["x.txt"]] =
      [DirEntry.dir "sub" ["x.txt"]] := by
  rw [(C10_clear_staging false (fun _ => false)
    [DirEntry.file "a.png", DirEntry.dir "sub" ["x.txt"]]).2.2.2 rfl (fun _ => rfl)]
  decide

/-- A directory entry that `wait_for_download` may legitimately return:
a regular file, without temporary suffix, matching the requested
extension when one is truthy, with stable positive size. -/
def qualifies (ext : Option String) (f : FileInfo) : Bool :=
  f.isFile && !isTempName f.name &&
  (match ext with
   | none => true
   | some e => if e = "" then true else pyEndsWith f.name ("." ++ e)) &&
  (f.size1 == f.size2) && decide (0 < f.size1)

theorem latestByCtime_mem {l : List FileInfo} {f : FileInfo}
    (h : latestByCtime l = some f) : f ∈ l := by
  unfold latestByCtime at h
  have key : ∀ (m : List FileInfo) (acc : Option FileInfo),
      (m.foldl
        (fun acc f =>
          match acc with
          | none => some f
          | some g => if f.ctime > g.ctime then some f else some g) acc) = some f →
      f ∈ m ∨ acc = some f := by
    intro m
    induction m with
    | nil => intro acc h; exact Or.inr h
    | cons x xs ih =>
      intro acc h
      rw [List.foldl_cons] at h
      rcases ih _ h with hmem | hacc
      · exact Or.inl (List.mem_cons_of_mem _ hmem)
      · cases acc with
        | none =>
          have hx : x = f := Option.some_inj.mp hacc
          exact Or.inl (hx ▸ List.mem_cons_self _ _)
        | some g =>
          have hstep : (if x.ctime > g.ctime then some x else some g) = some f := hacc
          by_cases hct : x.ctime > g.ctime
          · rw [if_pos hct] at hstep
            exact Or.inl ((Option.some_inj.mp hstep) ▸ List.mem_cons_self _ _)
          · rw [if_neg hct] at hstep
            exact Or.inr hstep
  rcases key l none h with hm | habs
  · exact hm
  · exact absurd habs (by simp)

theorem downloadCandidates_spec {ext : Option String} {entries : List FileInfo}
    {f : FileInfo} (h : f ∈ downloadCandidates ext entries) :
    f ∈ entries ∧ f.isFile = true ∧ isTempName f.name = false ∧
      ∀ e, ext = some e → e ≠ "" → pyEndsWith f.name ("." ++ e) = true := by
  cases ext with
  | none =>
    simp only [downloadCandidates, nonTempFiles, List.mem_filter] at h
    exact ⟨h.1.1, h.1.2, by simpa using h.2, fun e he => by cases he⟩
  | some e =>
    by_cases he : e = ""
    · rw [downloadCandidates, if_pos he] at h
      simp only [nonTempFiles, List.mem_filter] at h
      refine ⟨h.1.1, h.1.2, by simpa using h.2, ?_⟩
      intro e' he' hne
      cases he'
      exact absurd he hne
    · rw [downloadCandidates, if_neg he] at h
      simp only [nonTempFiles, List.mem_filter] at h
      refine ⟨h.1.1.1, h.1.1.2, by simpa using h.1.2, ?_⟩
      intro e' he' _
      cases he'
      exact h.2

theorem pollRound_some {dir : String} {ext : Option String}
    {obs : Except Unit (List FileInfo)} {p : String}
    (h : pollRound dir ext obs = some p) :
    ∃ entries f, obs = Except.ok entries ∧ f ∈ entries ∧
      qualifies ext f = true ∧
      f.isFile = true ∧ isTempName f.name = false ∧
      (∀ e, ext = some e → e ≠ "" → pyEndsWith f.name ("." ++ e) = true) ∧
      f.size1 = f.size2 ∧ 0 < f.size1 ∧ p = dir ++ "/" ++ f.name := by
  cases obs with
  | error u => rw [pollRound] at h; cases h
  | ok entries =>
    rw [pollRound] at h
    cases hl : latestByCtime (downloadCandidates ext entries) with
    | none => rw [hl] at h; cases h
    | some f =>
      rw [hl] at h
      have h : (if f.size1 = f.size2 ∧ 0 < f.size1
          then some (dir ++ "/" ++ f.name) else none) = some p := h
      by_cases hs : f.size1 = f.size2 ∧ 0 < f.size1
      · rw [if_pos hs] at h
        obtain ⟨hmem, hfile, htmp, hext⟩ :=
          downloadCandidates_spec (latestByCtime_mem hl)
        refine ⟨entries, f, rfl, hmem, ?_, hfile, htmp, hext, hs.1, hs.2,
          (Option.some_inj.mp h).symm⟩
        unfold qualifies
        rw [hfile, htmp]
        have hsz : (f.size1 == f.size2) = true := by
          simp [hs.1]
        rw [hsz]
        simp only [Bool.not_false, Bool.true_and, Bool.and_true]
        cases ext with
        | none => simp [hs.2]
        | some e =>
          by_cases he : e = ""
          · simp [he, hs.2]
          · simp [he, hext e rfl he, hs.2]
      · rw [if_neg hs] at h
        cases h

theorem waitForDownload_none (dir : String) (ext : Option String) :
    ∀ tr : List (Except Unit (List FileInfo)),
      (∀ entries, Except.ok entries ∈ tr → ∀ f ∈ entries,
        qualifies ext f = false) →
      waitForDownload dir ext tr = none := by
  intro tr
  induction tr with
  | nil => intro _; rfl
  | cons obs rest ih =>
    intro hno
    have hhead : pollRound dir ext obs = none := by
      cases hp : pollRound dir ext obs with
      | none => rfl
      | some p =>
        obtain ⟨entries, f, hobs, hmem, hq, _⟩ := pollRound_some hp
        have := hno entries (by rw [hobs]; exact List.mem_cons_self _ _) f hmem
        rw [this] at hq
        cases hq
    unfold waitForDownload
    rw [hhead]
    exact ih (fun entries he f hf => hno entries (List.mem_cons_of_mem _ he) f hf)

theorem waitForDownload_some (dir : String) (ext : Option String) :
    ∀ (tr : List (Except Unit (List FileInfo))) (p : String),
      waitForDownload dir ext tr = some p →
      ∃ entries f, Except.ok entries ∈ tr ∧ f ∈ entries ∧
        f.isFile = true ∧ isTempName f.name = false ∧
        (∀ e, ext = some e → e ≠ "" → pyEndsWith f.name ("." ++ e) = true) ∧
        f.size1 = f.size2 ∧ 0 < f.size1 ∧ p = dir ++ "/" ++ f.name := by
  intro tr
  induction tr with
  | nil => intro p h; cases h
  | cons obs rest ih =>
    intro p h
    unfold waitForDownload at h
    cases hp : pollRound dir ext obs with
    | some q =>
      rw [hp] at h
      obtain ⟨entries, f, hobs, hmem, _, hfile, htmp, hext, hsz, hpos, hq⟩ :=
        pollRound_some hp
      exact ⟨entries, f, by rw [hobs]; exact List.mem_cons_self _ _, hmem,
        hfile, htmp, hext, hsz, hpos, by rw [← Option.some_inj.mp h, hq]⟩
    | none =>
      rw [hp] at h
      obtain ⟨entries, f, hin, rest'⟩ := ih p h
      exact ⟨entries, f, List.mem_cons_of_mem _ hin, rest'⟩

/-- **C9.** `wait_for_download` never propagates an exception: an
observation on which the `os` calls raise is skipped (the `except`
clause logs and continues); when no qualifying file is observed within
the timeout it returns `None`; and any path it does return points at a
regular file of the staging directory without `.crdownload`/`.tmp`/
`.part` suffix, carrying the requested extension when one was given,
whose size was stable and positive across the two consecutive size
checks. -/
theorem C9_wait_for_download (dir : String) (ext : Option String)
    (tr : List (Except Unit (List FileInfo))) :
    (waitForDownload dir ext (Except.error () :: tr) =
      waitForDownload dir ext tr) ∧
    ((∀ entries, Except.ok entries ∈ tr → ∀ f ∈ entries,
        qualifies ext f = false) →
      waitForDownload dir ext tr = none) ∧
    (∀ p, waitForDownload dir ext tr = some p →
      ∃ entries f, Except.ok entries ∈ tr ∧ f ∈ entries ∧
        f.isFile = true ∧ isTempName f.name = false ∧
        (∀ e, ext = some e → e ≠ "" → pyEndsWith f.name ("." ++ e) = true) ∧
        f.size1 = f.size2 ∧ 0 < f.size1 ∧ p = dir ++ "/" ++ f.name) :=
  ⟨rfl, waitForDownload_none dir ext tr,
    fun p h => waitForDownload_some dir ext tr p h⟩

/-- Witness for C9: a run whose first observation raises and whose
second observes a stable completed download `a.png`. -/
theorem C9_wait_for_download_witness :
    waitForDownload "dl" (some "png")
        [Except.error (), Except.ok [⟨"a.png", true, 5, 3, 3⟩]] =
      some "dl/a.png" ∧
    ∃ entries f,
      Except.ok entries ∈
        [Except.error (), Except.ok [(⟨"a.png", true, 5, 3, 3⟩ : FileInfo)]] ∧
      f ∈ entries ∧ f.isFile = true ∧ isTempName f.name = false ∧
      (∀ e, (some "png" : Option String) = some e → e ≠ "" →
        pyEndsWith f.name ("." ++ e) = true) ∧
      f.size1 = f.size2 ∧ 0 < f.size1 ∧ "dl/a.png" = "dl" ++ "/" ++ f.name :=
  ⟨by decide,
    (C9_wait_for_download "dl" (some "png")
      [Except.error (), Except.ok [⟨"a.png", true, 5, 3, 3⟩]]).2.2
      "dl/a.png" (by decide)⟩

/-- A gemini image task used by the concrete run scenarios. -/
def gemA : Artifact := ⟨"A", "image", "gemini", "a", "png", "p"⟩

/-- A claude task used by the concrete run scenarios. -/
def claB : Artifact := ⟨"B", "image", "claude", "b", "png", "q"⟩

/-- **C5.** With `skip_existing` set and the task's `(output_name,
extension)` key already present in the artifacts store, the batch-loop
body marks the task Skipped and leaves everything else untouched: the
provider cache, the store and the previous trace are unchanged, and the
only event added is the skip marker — in particular no provider
capability method is invoked and no provider handle is acquired for the
task. -/
theorem C5_skip_existing (env : Env) (cfg : Config) (st : OState) (i : Nat)
    (a : Artifact) (hskip : cfg.skipExisting = true)
    (hex : artifactExists st.store a.output_name a.extension = true) :
    processOne env cfg st i a =
      { st with skipped := st.skipped + 1,
                trace := st.trace ++ [PEvent.skippedTask i] } ∧
    (processOne env cfg st i a).providers = st.providers ∧
    (processOne env cfg st i a).store = st.store ∧
    ∀ e ∈ (processOne env cfg st i a).trace, e ∉ st.trace →
      e = PEvent.skippedTask i := by
  have hcond : (cfg.skipExisting &&
      artifactExists st.store a.output_name a.extension) = true := by
    rw [hskip, hex]; rfl
  have heq : processOne env cfg st i a =
      { st with skipped := st.skipped + 1,
                trace := st.trace ++ [PEvent.skippedTask i] } := by
    unfold processOne
    rw [if_pos hcond]
  refine ⟨heq, by rw [heq], by rw [heq], ?_⟩
  intro e he hne
  rw [heq] at he
  rcases List.mem_append.mp he with h1 | h2
  · exact absurd h1 hne
  · exact List.mem_singleton.mp h2

/-- Witness for C5: a run state whose store already holds `a.png`. -/
theorem C5_skip_existing_witness :
    Config.skipExisting ⟨true, 3⟩ = true ∧
    artifactExists (initState ["a.png"]).store gemA.output_name
      gemA.extension = true ∧
    processOne { initOutcome := fun _ => InitOutcome.ok,
                 stepFail := fun _ _ => none, closeFails := fun _ => false }
        ⟨true, 3⟩ (initState ["a.png"]) 0 gemA =
      { (initState ["a.png"]) with
          skipped := 1,
          trace := [PEvent.skippedTask 0] } :=
  ⟨rfl, by decide,
    ((C5_skip_existing _ ⟨true, 3⟩ (initState ["a.png"]) 0 gemA rfl
      (by decide)).1).trans (by decide)⟩

theorem attemptsOf_append (i : Nat) (t1 t2 : List PEvent) :
    attemptsOf i (t1 ++ t2) = attemptsOf i t1 ++ attemptsOf i t2 := by
  unfold attemptsOf
  exact List.filterMap_append _ _ _

theorem backoffsOf_append (i : Nat) (t1 t2 : List PEvent) :
    backoffsOf i (t1 ++ t2) = backoffsOf i t1 ++ backoffsOf i t2 := by
  unfold backoffsOf
  exact List.filterMap_append _ _ _

theorem createsOf_append (b : String) (t1 t2 : List PEvent) :
    createsOf b (t1 ++ t2) = createsOf b t1 ++ createsOf b t2 := by
  unfold createsOf
  exact List.filterMap_append _ _ _

theorem attemptsOf_capList (j i h : Nat) (fail : Option CapStep) :
    attemptsOf j (capList i h fail) = [] := by
  rcases fail with _ | s
  · simp [capList, attemptsOf]
  · cases s <;> simp [capList, attemptsOf]

theorem backoffsOf_capList (j i h : Nat) (fail : Option CapStep) :
    backoffsOf j (capList i h fail) = [] := by
  rcases fail with _ | s
  · simp [capList, backoffsOf]
  · cases s <;> simp [capList, backoffsOf]

theorem createsOf_capList (b : String) (i h : Nat) (fail : Option CapStep) :
    createsOf b (capList i h fail) = [] := by
  rcases fail with _ | s
  · simp [capList, createsOf]
  · cases s <;> simp [capList, createsOf]

/-- Under an `initOutcome` oracle that always succeeds, `get_provider`
always returns a handle for a known backend. -/
theorem getProvider_some (env : Env) (st : OState) (b : String)
    (hok : ∀ h, env.initOutcome h = InitOutcome.ok)
    (hk : knownBackend b = true) :
    ∃ h, (getProvider env st b).2 = some h := by
  cases hl : lookupProv st.providers b with
  | some h => exact ⟨h, by simp [getProvider, hl]⟩
  | none =>
    refine ⟨st.nextId, ?_⟩
    simp [getProvider, hl, hk, hok st.nextId]

/-- `get_provider` adds no attempt and no backoff events. -/
theorem getProvider_trace (env : Env) (st : OState) (b : String) (i : Nat) :
    attemptsOf i (getProvider env st b).1.trace = attemptsOf i st.trace ∧
    backoffsOf i (getProvider env st b).1.trace = backoffsOf i st.trace := by
  cases hl : lookupProv st.providers b with
  | some h => simp [getProvider, hl]
  | none =>
    by_cases hk : knownBackend b = true
    · cases ho : env.initOutcome st.nextId <;>
        simp [getProvider, hl, hk, ho, attemptsOf_append, backoffsOf_append,
          attemptsOf, backoffsOf]
    · simp [getProvider, hl, hk]

/-- One `process_task` attempt records exactly one attempt event for
its task and no backoff, and — when provider acquisition cannot fail —
succeeds exactly when no capability step of this attempt raises. -/
theorem processArtifact_spec (env : Env) (st : OState) (i : Nat)
    (a : Artifact) (k : Nat)
    (hok : ∀ h, env.initOutcome h = InitOutcome.ok)
    (hk : knownBackend a.provider = true) :
    attemptsOf i (processArtifact env st i a k).1.trace =
      attemptsOf i st.trace ++ [k] ∧
    backoffsOf i (processArtifact env st i a k).1.trace =
      backoffsOf i st.trace ∧
    (processArtifact env st i a k).2 = (env.stepFail i k).isNone := by
  have hbase1 :
      attemptsOf i (st.trace ++ [PEvent.attemptStart i k]) =
        attemptsOf i st.trace ++ [k] := by
    rw [attemptsOf_append]
    simp [attemptsOf]
  have hbase2 :
      backoffsOf i (st.trace ++ [PEvent.attemptStart i k]) =
        backoffsOf i st.trace := by
    rw [backoffsOf_append]
    simp [backoffsOf]
  obtain ⟨h, hgp2⟩ := getProvider_some env
    { st with trace := st.trace ++ [PEvent.attemptStart i k] } a.provider hok hk
  obtain ⟨hgt1, hgt2⟩ := getProvider_trace env
    { st with trace := st.trace ++ [PEvent.attemptStart i k] } a.provider i
  rcases hgp : getProvider env
      { st with trace := st.trace ++ [PEvent.attemptStart i k] } a.provider
    with ⟨st', oh⟩
  rw [hgp] at hgp2 hgt1 hgt2
  simp only at hgp2 hgt1 hgt2
  subst hgp2
  unfold processArtifact
  rw [hgp]
  simp only []
  cases hsf : env.stepFail i k with
  | some s =>
    simp only []
    refine ⟨?_, ?_, rfl⟩
    · rw [attemptsOf_append, hgt1, hbase1, attemptsOf_capList]
      simp
    · rw [backoffsOf_append, hgt2, hbase2, backoffsOf_capList]
      simp
  | none =>
    simp only []
    refine ⟨?_, ?_, rfl⟩
    · rw [attemptsOf_append, hgt1, hbase1, attemptsOf_capList]
      simp
    · rw [backoffsOf_append, hgt2, hbase2, backoffsOf_capList]
      simp

/-- The retry loop: starting at attempt `k` with `rem` attempts
remaining it makes `m ≤ rem` attempts numbered `k, k+1, …`, observes
the backoff exactly after each attempt but the last, stops at the first
succeeding attempt, and reports success exactly when its last attempt
succeeded. -/
theorem retryGo_spec (env : Env) (i : Nat) (a : Artifact)
    (hok : ∀ h, env.initOutcome h = InitOutcome.ok)
    (hk : knownBackend a.provider = true) :
    ∀ (rem k : Nat) (st : OState), ∃ m,
      m ≤ rem ∧ (0 < rem → 0 < m) ∧
      attemptsOf i (retryGo env i a rem k st).1.trace =
        attemptsOf i st.trace ++ List.range' k m ∧
      backoffsOf i (retryGo env i a rem k st).1.trace =
        backoffsOf i st.trace ++ List.range' k (m - 1) ∧
      ((retryGo env i a rem k st).2 = true ↔
        0 < m ∧ env.stepFail i (k + m - 1) = none) ∧
      (∀ j, k ≤ j → j + 1 < k + m → env.stepFail i j ≠ none) := by
  intro rem
  induction rem with
  | zero =>
    intro k st
    refine ⟨0, Nat.le_refl 0, by omega, by simp [retryGo], by simp [retryGo], ?_, ?_⟩
    · simp [retryGo]
    · intro j hj1 hj2; omega
  | succ rem ih =>
    intro k st
    obtain ⟨ha, hb, hok2⟩ := processArtifact_spec env st i a k hok hk
    rcases hpa : processArtifact env st i a k with ⟨st', ok⟩
    rw [hpa] at ha hb hok2
    simp only at ha hb hok2
    cases hsf : env.stepFail i k with
    | none =>
      have hoktrue : ok = true := by rw [hok2, hsf]; rfl
      subst hoktrue
      refine ⟨1, by omega, fun _ => by omega, ?_, ?_, ?_, ?_⟩
      · rw [retryGo]
        rw [hpa]
        simp only []
        rw [ha, List.range'_one]
      · rw [retryGo]
        rw [hpa]
        simp only []
        rw [hb]
        simp
      · rw [retryGo]
        rw [hpa]
        simp only []
        constructor
        · intro _
          refine ⟨by omega, ?_⟩
          have : k + 1 - 1 = k := by omega
          rw [this, hsf]
        · intro _; trivial
      · intro j hj1 hj2; omega
    | some s =>
      have hokfalse : ok = false := by rw [hok2, hsf]; rfl
      subst hokfalse
      by_cases hrem : rem = 0
      · subst hrem
        refine ⟨1, by omega, fun _ => by omega, ?_, ?_, ?_, ?_⟩
        · rw [retryGo, hpa]
          simp only []
          rw [if_true, ha, List.range'_one]
        · rw [retryGo, hpa]
          simp only []
          rw [if_true, hb]
          simp
        · rw [retryGo, hpa]
          simp only []
          rw [if_true]
          constructor
          · intro hcon; cases hcon
          · rintro ⟨-, hnone⟩
            have : k + 1 - 1 = k := by omega
            rw [this, hsf] at hnone
            cases hnone
        · intro j hj1 hj2; omega
      · obtain ⟨m', hle', hpos', ha', hb', hiff', hfirst'⟩ :=
          ih (k + 1) { st' with trace := st'.trace ++ [PEvent.backoff i k] }
        have hm'1 : 0 < m' := hpos' (Nat.pos_of_ne_zero hrem)
        have hres : retryGo env i a (rem + 1) k st =
            retryGo env i a rem (k + 1)
              { st' with trace := st'.trace ++ [PEvent.backoff i k] } := by
          rw [retryGo, hpa]
          simp only [if_neg hrem]
        have hstep1 : attemptsOf i (st'.trace ++ [PEvent.backoff i k]) =
            attemptsOf i st.trace ++ [k] := by
          rw [attemptsOf_append, ha]
          simp [attemptsOf]
        have hstep2 : backoffsOf i (st'.trace ++ [PEvent.backoff i k]) =
            backoffsOf i st.trace ++ [k] := by
          rw [backoffsOf_append, hb]
          simp [backoffsOf]
        refine ⟨m' + 1, by omega, fun _ => by omega, ?_, ?_, ?_, ?_⟩
        · rw [hres, ha', hstep1]
          rw [List.append_assoc]
          congr 1
        · rw [hres, hb', hstep2]
          rw [List.append_assoc]
          have h1 : m' + 1 - 1 = m' := by omega
          have h2 : m' - 1 + 1 = m' := by omega
          rw [h1, ← h2, List.range'_succ, h2]
          rfl
        · rw [hres, hiff']
          have h1 : k + 1 + m' - 1 = k + (m' + 1) - 1 := by omega
          rw [h1]
          constructor
          · rintro ⟨-, hx⟩; exact ⟨by omega, hx⟩
          · rintro ⟨-, hx⟩; exact ⟨hm'1, hx⟩
        · intro j hj1 hj2
          by_cases hjk : j = k
          · subst hjk
            rw [hsf]
            simp
          · exact hfirst' j (by omega) (by omega)

/-- Environment for the C4 scenario: attempts 1 and 2 of task 0 fail at
the completion wait, attempt 3 succeeds; handle initialisation and
close never fail. -/
def envC4 : Env :=
  { initOutcome := fun _ => InitOutcome.ok,
    stepFail := fun i k =>
      if i = 0 ∧ k ≤ 2 then some CapStep.waitCompletion else none,
    closeFails := fun _ => false }

/-- **C4.** Retry accounting.  Generally (when provider acquisition
cannot fail): the retry loop for a task makes at most `retry_attempts`
attempts, numbered from 1; the fixed backoff is observed exactly after
each attempt except the last; every attempt before the last failed
(attempting stops at the first success); and the loop reports success
exactly when its last attempt succeeded.  Concretely, a task failing on
attempts 1 and 2 and succeeding on attempt 3 under `retry_attempts = 3`
is counted in the run summary once as Succeeded and not as Failed, with
attempts `[1, 2, 3]` and backoffs exactly after attempts 1 and 2. -/
theorem C4_retry_accounting :
    (∀ (env : Env) (cfg : Config) (i : Nat) (a : Artifact) (st : OState),
      (∀ h, env.initOutcome h = InitOutcome.ok) →
      knownBackend a.provider = true →
      ∃ m, m ≤ cfg.retryAttempts ∧
        attemptsOf i (retryGo env i a cfg.retryAttempts 1 st).1.trace =
          attemptsOf i st.trace ++ List.range' 1 m ∧
        backoffsOf i (retryGo env i a cfg.retryAttempts 1 st).1.trace =
          backoffsOf i st.trace ++ List.range' 1 (m - 1) ∧
        ((retryGo env i a cfg.retryAttempts 1 st).2 = true ↔
          0 < m ∧ env.stepFail i m = none) ∧
        (∀ j, 1 ≤ j → j + 1 < 1 + m → env.stepFail i j ≠ none)) ∧
    (runOrch envC4 ⟨true, 3⟩ (Except.ok [gemA]) []).successful = 1 ∧
    (runOrch envC4 ⟨true, 3⟩ (Except.ok [gemA]) []).failed = 0 ∧
    attemptsOf 0 (runOrch envC4 ⟨true, 3⟩ (Except.ok [gemA]) []).trace =
      [1, 2, 3] ∧
    backoffsOf 0 (runOrch envC4 ⟨true, 3⟩ (Except.ok [gemA]) []).trace =
      [1, 2] := by
  refine ⟨?_, by decide, by decide, by decide, by decide⟩
  intro env cfg i a st hok hk
  obtain ⟨m, hle, -, ha, hb, hiff, hfirst⟩ :=
    retryGo_spec env i a hok hk cfg.retryAttempts 1 st
  refine ⟨m, hle, ha, hb, ?_, hfirst⟩
  rw [hiff]
  have h1 : 1 + m - 1 = m := by omega
  rw [h1]

/-- Witness for C4: the general retry bound applied to the concrete
scenario environment. -/
theorem C4_retry_accounting_witness :
    (∀ h, envC4.initOutcome h = InitOutcome.ok) ∧
    knownBackend gemA.provider = true ∧
    ∃ m, m ≤ Config.retryAttempts ⟨true, 3⟩ ∧
      attemptsOf 0
          (retryGo envC4 0 gemA (Config.retryAttempts ⟨true, 3⟩) 1
            (initState [])).1.trace =
        attemptsOf 0 (initState []).trace ++ List.range' 1 m ∧
      backoffsOf 0
          (retryGo envC4 0 gemA (Config.retryAttempts ⟨true, 3⟩) 1
            (initState [])).1.trace =
        backoffsOf 0 (initState []).trace ++ List.range' 1 (m - 1) ∧
      ((retryGo envC4 0 gemA (Config.retryAttempts ⟨true, 3⟩) 1
          (initState [])).2 = true ↔
        0 < m ∧ envC4.stepFail 0 m = none) ∧
      (∀ j, 1 ≤ j → j + 1 < 1 + m → envC4.stepFail 0 j ≠ none) :=
  ⟨fun _ => rfl, rfl,
    C4_retry_accounting.1 envC4 ⟨true, 3⟩ 0 gemA (initState [])
      (fun _ => rfl) rfl⟩

/-! ### Invariants of the orchestrator run -/

/-- Basic run-state invariant: cached handle ids are fresh and pairwise
distinct, and no close has been invoked yet. -/
def WInv (st : OState) : Prop :=
  (∀ p ∈ st.providers, p.2 < st.nextId) ∧
  (st.providers.map Prod.snd).Nodup ∧
  (∀ h, PEvent.closeCall h ∉ st.trace)

/-- The handle the cache associates to backend `b`, as a list. -/
def lookupList (ps : List (String × Nat)) (b : String) : List Nat :=
  match lookupProv ps b with
  | some h => [h]
  | none => []

/-- Strong invariant (holds while handle initialisation never fails):
`WInv`, and the created handles of each backend are exactly the cached
one. -/
def SInv (st : OState) : Prop :=
  WInv st ∧ ∀ b, createsOf b st.trace = lookupList st.providers b

theorem lookupProv_append (ps : List (String × Nat)) (b b' : String) (h : Nat) :
    lookupProv (ps ++ [(b, h)]) b' =
      match lookupProv ps b' with
      | some x => some x
      | none => if b = b' then some h else none := by
  induction ps with
  | nil => simp [lookupProv]
  | cons p rest ih =>
    rcases p with ⟨pb, ph⟩
    by_cases hpb : pb = b'
    · simp [lookupProv, hpb]
    · simp only [List.cons_append, lookupProv, if_neg hpb]
      exact ih

theorem lookupProv_mem {ps : List (String × Nat)} {b : String} {h : Nat}
    (hl : lookupProv ps b = some h) : (b, h) ∈ ps := by
  induction ps with
  | nil => cases hl
  | cons p rest ih =>
    rcases p with ⟨pb, ph⟩
    by_cases hpb : pb = b
    · rw [lookupProv, if_pos hpb] at hl
      subst hpb
      exact (Option.some_inj.mp hl) ▸ List.mem_cons_self _ _
    · rw [lookupProv, if_neg hpb] at hl
      exact List.mem_cons_of_mem _ (ih hl)

theorem createsOf_create (b b' : String) (h : Nat) :
    createsOf b' [PEvent.create b h] = if b = b' then [h] else [] := by
  by_cases hb : b = b'
  · simp [createsOf, hb]
  · simp [createsOf, hb]

theorem createsOf_attemptStart (b : String) (i k : Nat) :
    createsOf b [PEvent.attemptStart i k] = [] := by
  simp [createsOf]

theorem createsOf_backoff (b : String) (i k : Nat) :
    createsOf b [PEvent.backoff i k] = [] := by
  simp [createsOf]

theorem createsOf_skipped (b : String) (i : Nat) :
    createsOf b [PEvent.skippedTask i] = [] := by
  simp [createsOf]

theorem closeCall_not_mem_capList (x i h : Nat) (fail : Option CapStep) :
    PEvent.closeCall x ∉ capList i h fail := by
  rcases fail with _ | s
  · simp [capList]
  · cases s <;> simp [capList]

theorem mem_createsOf {b : String} {h : Nat} {t : List PEvent}
    (hm : PEvent.create b h ∈ t) : h ∈ createsOf b t := by
  unfold createsOf
  exact List.mem_filterMap.mpr ⟨PEvent.create b h, hm, by simp⟩

/-- `closeOne` only appends the close event (a raising `close()` is
caught and logged). -/
theorem closeOne_eq (env : Env) (st : OState) (p : String × Nat) :
    closeOne env st p =
      { st with trace := st.trace ++ [PEvent.closeCall p.2] } := by
  unfold closeOne
  split <;> rfl

theorem cleanup_foldl_spec (env : Env) :
    ∀ (l : List (String × Nat)) (st : OState),
      (l.foldl (closeOne env) st).providers = st.providers ∧
      (l.foldl (closeOne env) st).trace =
        st.trace ++ l.map (fun p => PEvent.closeCall p.2) := by
  intro l
  induction l with
  | nil => intro st; simp
  | cons p rest ih =>
    intro st
    rw [List.foldl_cons, closeOne_eq]
    obtain ⟨h1, h2⟩ := ih { st with trace := st.trace ++ [PEvent.closeCall p.2] }
    refine ⟨h1, ?_⟩
    rw [h2]
    simp

/-- `cleanup` leaves the provider cache and appends exactly one close
event per cached provider, in dictionary order. -/
theorem cleanup_spec (env : Env) (st : OState) :
    (cleanup env st).providers = st.providers ∧
    (cleanup env st).trace =
      st.trace ++ st.providers.map (fun p => PEvent.closeCall p.2) :=
  cleanup_foldl_spec env st.providers st

theorem createsOf_closeCalls (b : String) (l : List (String × Nat)) :
    createsOf b (l.map (fun p => PEvent.closeCall p.2)) = [] := by
  induction l with
  | nil => rfl
  | cons p rest ih => simp [createsOf, List.filterMap_cons]

theorem closeCount_closeCalls (h : Nat) (l : List (String × Nat)) :
    closeCount h (l.map (fun p => PEvent.closeCall p.2)) =
      (l.map Prod.snd).count h := by
  unfold closeCount
  have hmap : l.map (fun p => PEvent.closeCall p.2) =
      (l.map Prod.snd).map PEvent.closeCall := by
    rw [List.map_map]
    rfl
  rw [hmap]
  exact List.count_map_of_injective _ PEvent.closeCall
    (fun a b hab => by cases hab; rfl) h

theorem winv_extend (st : OState) (Δ : List PEvent) (s' : List String)
    (hc : ∀ x, PEvent.closeCall x ∉ Δ) (h : WInv st) :
    WInv { st with trace := st.trace ++ Δ, store := s' } := by
  obtain ⟨hbound, hnodup, hnc⟩ := h
  refine ⟨hbound, hnodup, ?_⟩
  intro x hx
  rcases List.mem_append.mp hx with h1 | h2
  · exact hnc x h1
  · exact hc x h2

theorem sinv_extend (st : OState) (Δ : List PEvent) (s' : List String)
    (hc : ∀ x, PEvent.closeCall x ∉ Δ)
    (hn : ∀ b, createsOf b Δ = []) (h : SInv st) :
    SInv { st with trace := st.trace ++ Δ, store := s' } := by
  obtain ⟨hw, hcr⟩ := h
  refine ⟨winv_extend st Δ s' hc hw, ?_⟩
  intro b
  rw [createsOf_append, hn b, List.append_nil]
  exact hcr b

theorem winv_getProvider (env : Env) (st : OState) (b : String)
    (h : WInv st) : WInv (getProvider env st b).1 := by
  obtain ⟨hbound, hnodup, hnc⟩ := h
  cases hl : lookupProv st.providers b with
  | some hh => simp only [getProvider, hl]; exact ⟨hbound, hnodup, hnc⟩
  | none =>
    by_cases hk : knownBackend b = true
    · cases ho : env.initOutcome st.nextId with
      | failInit =>
        simp only [getProvider, hl, hk, ho, if_true]
        refine ⟨fun p hp => Nat.lt_succ_of_lt (hbound p hp), hnodup, hnc⟩
      | failLogin =>
        simp only [getProvider, hl, hk, ho, if_true]
        refine ⟨fun p hp => Nat.lt_succ_of_lt (hbound p hp), hnodup, ?_⟩
        intro x hx
        rcases List.mem_append.mp hx with h1 | h2
        · exact hnc x h1
        · simp at h2
      | ok =>
        simp only [getProvider, hl, hk, ho, if_true]
        refine ⟨?_, ?_, ?_⟩
        · intro p hp
          rcases List.mem_append.mp hp with h1 | h2
          · exact Nat.lt_succ_of_lt (hbound p h1)
          · rcases List.mem_singleton.mp h2 with rfl
            exact Nat.lt_succ_self _
        · rw [List.map_append]
          rw [List.nodup_append]
          refine ⟨hnodup, List.nodup_singleton _, ?_⟩
          intro x hx hx2
          simp at hx2
          subst hx2
          rcases List.mem_map.mp hx with ⟨p, hp, hsnd⟩
          exact absurd (hsnd ▸ hbound p hp) (Nat.lt_irrefl _)
        · intro x hx
          rcases List.mem_append.mp hx with h1 | h2
          · exact hnc x h1
          · simp at h2
    · simp only [getProvider, hl]
      rw [if_neg hk]
      exact ⟨hbound, hnodup, hnc⟩

theorem sinv_getProvider (env : Env) (st : OState) (b : String)
    (hok : ∀ h, env.initOutcome h = InitOutcome.ok)
    (h : SInv st) : SInv (getProvider env st b).1 := by
  obtain ⟨hw, hcr⟩ := h
  cases hl : lookupProv st.providers b with
  | some hh => simp only [getProvider, hl]; exact ⟨hw, hcr⟩
  | none =>
    by_cases hk : knownBackend b = true
    · simp only [getProvider, hl, hk, hok st.nextId, if_true]
      refine ⟨?_, ?_⟩
      · have := winv_getProvider env st b hw
        simp only [getProvider, hl, hk, hok st.nextId, if_true] at this
        exact this
      · intro b'
        rw [createsOf_append, hcr b', createsOf_create]
        unfold lookupList
        rw [lookupProv_append]
        by_cases hbb : b = b'
        · subst hbb
          rw [hl]
          simp [lookupList]
        · rw [if_neg hbb]
          cases lookupProv st.providers b' <;> simp [hbb]
    · simp only [getProvider, hl]
      rw [if_neg hk]
      exact ⟨hw, hcr⟩

theorem winv_processArtifact (env : Env) (st : OState) (i : Nat)
    (a : Artifact) (k : Nat) (h : WInv st) :
    WInv (processArtifact env st i a k).1 := by
  unfold processArtifact
  have h1 : WInv { st with trace := st.trace ++ [PEvent.attemptStart i k] } :=
    winv_extend st _ st.store (by simp) h
  have h2 := winv_getProvider env
    { st with trace := st.trace ++ [PEvent.attemptStart i k] } a.provider h1
  rcases hgp : getProvider env
      { st with trace := st.trace ++ [PEvent.attemptStart i k] } a.provider
    with ⟨st', oh⟩
  rw [hgp] at h2
  simp only at h2
  cases oh with
  | none => exact h2
  | some hh =>
    cases env.stepFail i k with
    | some s =>
      exact winv_extend st' _ st'.store
        (fun x => closeCall_not_mem_capList x i hh _) h2
    | none =>
      exact winv_extend st' _ _
        (fun x => closeCall_not_mem_capList x i hh _) h2

theorem sinv_processArtifact (env : Env) (st : OState) (i : Nat)
    (a : Artifact) (k : Nat)
    (hok : ∀ h, env.initOutcome h = InitOutcome.ok) (h : SInv st) :
    SInv (processArtifact env st i a k).1 := by
  unfold processArtifact
  have h1 : SInv { st with trace := st.trace ++ [PEvent.attemptStart i k] } :=
    sinv_extend st _ st.store (by simp) (fun b => createsOf_attemptStart b i k) h
  have h2 := sinv_getProvider env
    { st with trace := st.trace ++ [PEvent.attemptStart i k] } a.provider hok h1
  rcases hgp : getProvider env
      { st with trace := st.trace ++ [PEvent.attemptStart i k] } a.provider
    with ⟨st', oh⟩
  rw [hgp] at h2
  simp only at h2
  cases oh with
  | none => exact h2
  | some hh =>
    cases env.stepFail i k with
    | some s =>
      exact sinv_extend st' _ st'.store
        (fun x => closeCall_not_mem_capList x i hh _)
        (fun b => createsOf_capList b i hh _) h2
    | none =>
      exact sinv_extend st' _ _
        (fun x => closeCall_not_mem_capList x i hh _)
        (fun b => createsOf_capList b i hh _) h2

theorem winv_retryGo (env : Env) (i : Nat) (a : Artifact) :
    ∀ (rem k : Nat) (st : OState), WInv st →
      WInv (retryGo env i a rem k st).1 := by
  intro rem
  induction rem with
  | zero => intro k st h; simpa [retryGo] using h
  | succ rem ih =>
    intro k st h
    rw [retryGo]
    have hpa := winv_processArtifact env st i a k h
    rcases hq : processArtifact env st i a k with ⟨st', ok⟩
    rw [hq] at hpa
    simp only at hpa
    cases ok with
    | true => exact hpa
    | false =>
      show WInv (if rem = 0 then (st', false)
        else retryGo env i a rem (k + 1)
          { st' with trace := st'.trace ++ [PEvent.backoff i k] }).1
      by_cases hrem : rem = 0
      · rw [if_pos hrem]
        exact hpa
      · rw [if_neg hrem]
        exact ih (k + 1) _ (winv_extend st' _ st'.store (by simp) hpa)

theorem sinv_retryGo (env : Env) (i : Nat) (a : Artifact)
    (hok : ∀ h, env.initOutcome h = InitOutcome.ok) :
    ∀ (rem k : Nat) (st : OState), SInv st →
      SInv (retryGo env i a rem k st).1 := by
  intro rem
  induction rem with
  | zero => intro k st h; simpa [retryGo] using h
  | succ rem ih =>
    intro k st h
    rw [retryGo]
    have hpa := sinv_processArtifact env st i a k hok h
    rcases hq : processArtifact env st i a k with ⟨st', ok⟩
    rw [hq] at hpa
    simp only at hpa
    cases ok with
    | true => exact hpa
    | false =>
      show SInv (if rem = 0 then (st', false)
        else retryGo env i a rem (k + 1)
          { st' with trace := st'.trace ++ [PEvent.backoff i k] }).1
      by_cases hrem : rem = 0
      · rw [if_pos hrem]
        exact hpa
      · rw [if_neg hrem]
        exact ih (k + 1) _ (sinv_extend st' _ st'.store (by simp)
          (fun b => createsOf_backoff b i k) hpa)

theorem winv_processOne (env : Env) (cfg : Config) (st : OState) (i : Nat)
    (a : Artifact) (h : WInv st) : WInv (processOne env cfg st i a) := by
  unfold processOne
  by_cases hc : (cfg.skipExisting &&
      artifactExists st.store a.output_name a.extension) = true
  · rw [if_pos hc]
    exact winv_extend st _ st.store (by simp) h
  · rw [if_neg hc]
    have hr := winv_retryGo env i a cfg.retryAttempts 1 st h
    rcases hq : retryGo env i a cfg.retryAttempts 1 st with ⟨st', ok⟩
    rw [hq] at hr
    simp only at hr
    cases ok
    · exact hr
    · exact hr

theorem sinv_processOne (env : Env) (cfg : Config) (st : OState) (i : Nat)
    (a : Artifact) (hok : ∀ h, env.initOutcome h = InitOutcome.ok)
    (h : SInv st) : SInv (processOne env cfg st i a) := by
  unfold processOne
  by_cases hc : (cfg.skipExisting &&
      artifactExists st.store a.output_name a.extension) = true
  · rw [if_pos hc]
    exact sinv_extend st _ st.store (by simp)
      (fun b => createsOf_skipped b i) h
  · rw [if_neg hc]
    have hr := sinv_retryGo env i a hok cfg.retryAttempts 1 st h
    rcases hq : retryGo env i a cfg.retryAttempts 1 st with ⟨st', ok⟩
    rw [hq] at hr
    simp only at hr
    cases ok
    · exact hr
    · exact hr

theorem winv_processFrom (env : Env) (cfg : Config) :
    ∀ (arts : List Artifact) (i : Nat) (st : OState), WInv st →
      WInv (processFrom env cfg i arts st) := by
  intro arts
  induction arts with
  | nil => intro i st h; exact h
  | cons a rest ih =>
    intro i st h
    exact ih (i + 1) _ (winv_processOne env cfg st i a h)

theorem sinv_processFrom (env : Env) (cfg : Config)
    (hok : ∀ h, env.initOutcome h = InitOutcome.ok) :
    ∀ (arts : List Artifact) (i : Nat) (st : OState), SInv st →
      SInv (processFrom env cfg i arts st) := by
  intro arts
  induction arts with
  | nil => intro i st h; exact h
  | cons a rest ih =>
    intro i st h
    exact ih (i + 1) _ (sinv_processOne env cfg st i a hok h)

theorem winv_init (store0 : List String) : WInv (initState store0) := by
  refine ⟨?_, ?_, ?_⟩ <;> simp [initState, WInv]

theorem sinv_init (store0 : List String) : SInv (initState store0) := by
  refine ⟨winv_init store0, ?_⟩
  intro b
  simp [initState, createsOf, lookupList, lookupProv]

/-- Teardown of a state with distinct cached handles and no prior
close: every cached handle receives exactly one `close()` call. -/
theorem closeCount_cleanup (env : Env) (st : OState) (hw : WInv st) :
    ∀ p ∈ (cleanup env st).providers,
      closeCount p.2 (cleanup env st).trace = 1 := by
  obtain ⟨hbound, hnodup, hnc⟩ := hw
  obtain ⟨hp, ht⟩ := cleanup_spec env st
  intro p hp2
  rw [hp] at hp2
  rw [ht]
  unfold closeCount
  rw [List.count_append]
  rw [List.count_eq_zero.mpr (hnc p.2)]
  have hc := closeCount_closeCalls p.2 st.providers
  unfold closeCount at hc
  rw [hc]
  have hmem : p.2 ∈ st.providers.map Prod.snd := List.mem_map.mpr ⟨p, hp2, rfl⟩
  rw [List.count_eq_one_of_mem hnodup hmem]

/-- A state with the strong invariant, after teardown: at most one
handle was ever created per backend, and every created handle is cached
and receives exactly one `close()` call. -/
theorem sinv_final (env : Env) (st : OState) (hs : SInv st) :
    (∀ b, (createsOf b (cleanup env st).trace).length ≤ 1) ∧
    (∀ b h, PEvent.create b h ∈ (cleanup env st).trace →
      (b, h) ∈ (cleanup env st).providers ∧
      closeCount h (cleanup env st).trace = 1) := by
  obtain ⟨⟨hbound, hnodup, hnc⟩, hcr⟩ := hs
  obtain ⟨hp, ht⟩ := cleanup_spec env st
  constructor
  · intro b
    rw [ht, createsOf_append, createsOf_closeCalls, List.append_nil, hcr b]
    unfold lookupList
    cases lookupProv st.providers b <;> simp
  · intro b h hm
    rw [ht] at hm
    rcases List.mem_append.mp hm with h1 | h2
    swap
    · exfalso
      rcases List.mem_map.mp h2 with ⟨p, -, hpe⟩
      cases hpe
    · have hin : h ∈ createsOf b st.trace := mem_createsOf h1
      rw [hcr b] at hin
      unfold lookupList at hin
      cases hl : lookupProv st.providers b with
      | none => rw [hl] at hin; simp at hin
      | some h' =>
        rw [hl] at hin
        rcases List.mem_singleton.mp hin with rfl
        have hmem := lookupProv_mem hl
        refine ⟨by rw [hp]; exact hmem, ?_⟩
        rw [ht]
        unfold closeCount
        rw [List.count_append]
        rw [List.count_eq_zero.mpr (hnc h)]
        have hc := closeCount_closeCalls h st.providers
        unfold closeCount at hc
        rw [hc]
        have hms : h ∈ st.providers.map Prod.snd :=
          List.mem_map.mpr ⟨(b, h), hmem, rfl⟩
        rw [List.count_eq_one_of_mem hnodup hms]

/-- Environment for the C8 scenario: every attempt of task 0 (backend
A = gemini) raises at the completion wait, task 1 (backend B = claude)
succeeds, and `close()` on backend B's handle raises. -/
def envC8 : Env :=
  { initOutcome := fun _ => InitOutcome.ok,
    stepFail := fun i _ => if i = 0 then some CapStep.waitCompletion else none,
    closeFails := fun h => h = 1 }

/-- **C8.** At run teardown, `close()` is invoked exactly once on every
acquired (cached) provider handle, for every environment — whatever the
step failures, the parse outcome, and the close outcomes (a raising
`close()` is caught per handle, so it cannot prevent the remaining
closes).  In the concrete scenario, task A's `process_task` raises at
the completion wait and handle B's `close()` itself raises; both
handles still receive exactly one `close()` call. -/
theorem C8_teardown_closes_all (env : Env) (cfg : Config)
    (parseRes : Except Unit (List Artifact)) (store0 : List String) :
    (∀ p ∈ (runOrch env cfg parseRes store0).providers,
      closeCount p.2 (runOrch env cfg parseRes store0).trace = 1) ∧
    closeCount 0
      (runOrch envC8 ⟨true, 1⟩ (Except.ok [gemA, claB]) []).trace = 1 ∧
    closeCount 1
      (runOrch envC8 ⟨true, 1⟩ (Except.ok [gemA, claB]) []).trace = 1 ∧
    ("gemini", 0) ∈
      (runOrch envC8 ⟨true, 1⟩ (Except.ok [gemA, claB]) []).providers ∧
    ("claude", 1) ∈
      (runOrch envC8 ⟨true, 1⟩ (Except.ok [gemA, claB]) []).providers ∧
    envC8.closeFails 1 = true ∧
    envC8.stepFail 0 1 = some CapStep.waitCompletion := by
  refine ⟨?_, by decide, by decide, by decide, by decide, by decide, by decide⟩
  cases parseRes with
  | error u =>
    intro p hp
    simp only [runOrch] at hp ⊢
    exact closeCount_cleanup env _ (winv_init store0) p hp
  | ok arts =>
    intro p hp
    simp only [runOrch] at hp ⊢
    by_cases he : arts.isEmpty = true
    · rw [if_pos he] at hp ⊢
      exact closeCount_cleanup env _ (winv_init store0) p hp
    · rw [if_neg he] at hp ⊢
      exact closeCount_cleanup env _
        (winv_processFrom env cfg arts 0 (initState store0)
          (winv_init store0)) p hp

/-- Witness for C8: the universal teardown guarantee applied to the
concrete scenario run at backend A's cached handle. -/
theorem C8_teardown_closes_all_witness :
    ("gemini", 0) ∈
      (runOrch envC8 ⟨true, 1⟩ (Except.ok [gemA, claB]) []).providers ∧
    closeCount 0
      (runOrch envC8 ⟨true, 1⟩ (Except.ok [gemA, claB]) []).trace = 1 :=
  ⟨by decide,
    (C8_teardown_closes_all envC8 ⟨true, 1⟩ (Except.ok [gemA, claB]) []).1
      ("gemini", 0) (by decide)⟩

/-- Environment for the C2 counterexample: `login` raises for the first
constructed provider object (its browser session already exists),
everything afterwards succeeds. -/
def envC2 : Env :=
  { initOutcome := fun h =>
      if h = 0 then InitOutcome.failLogin else InitOutcome.ok,
    stepFail := fun _ _ => none, closeFails := fun _ => false }

/-- **C2 (counterexample).** The claim says at most one handle exists
per backend at any time and every handle created during the run is
destroyed at teardown.  When `login` raises after `init_driver` has
started the browser, `get_provider` leaves the session live but never
caches it; the retry then creates a second session for the same
backend, and teardown closes only the cached one: in this run two
gemini handles are created and handle 0 never receives a `close()`. -/
theorem C2_abandoned_handle :
    createsOf "gemini"
      (runOrch envC2 ⟨false, 2⟩ (Except.ok [gemA]) []).trace = [0, 1] ∧
    PEvent.create "gemini" 0 ∈
      (runOrch envC2 ⟨false, 2⟩ (Except.ok [gemA]) []).trace ∧
    closeCount 0 (runOrch envC2 ⟨false, 2⟩ (Except.ok [gemA]) []).trace = 0 ∧
    closeCount 1 (runOrch envC2 ⟨false, 2⟩ (Except.ok [gemA]) []).trace = 1 := by
  refine ⟨by decide, by decide, by decide, by decide⟩

/-- **C2 (amended).** Provided every handle initialisation
(`init_driver` and `login`) succeeds: at most one handle is ever
created per backend during a run (the first reference creates and
caches it, later references reuse it), and every created handle is
cached and destroyed exactly once at run teardown, also when tasks
fail.  A handle whose initialisation raises after the session started
is abandoned: it is never cached and never closed (see the
counterexample). -/
theorem C2_handle_lifecycle (env : Env) (cfg : Config)
    (arts : List Artifact) (store0 : List String)
    (hok : ∀ h, env.initOutcome h = InitOutcome.ok) :
    (∀ b, (createsOf b
      (runOrch env cfg (Except.ok arts) store0).trace).length ≤ 1) ∧
    (∀ b h, PEvent.create b h ∈
        (runOrch env cfg (Except.ok arts) store0).trace →
      (b, h) ∈ (runOrch env cfg (Except.ok arts) store0).providers ∧
      closeCount h (runOrch env cfg (Except.ok arts) store0).trace = 1) := by
  simp only [runOrch]
  by_cases he : arts.isEmpty = true
  · rw [if_pos he]
    exact sinv_final env _ (sinv_init store0)
  · rw [if_neg he]
    exact sinv_final env _
      (sinv_processFrom env cfg hok arts 0 (initState store0)
        (sinv_init store0))

/-- Witness for C2: the amended lifecycle applied to an environment in
which initialisation always succeeds. -/
theorem C2_handle_lifecycle_witness :
    (∀ h, envC4.initOutcome h = InitOutcome.ok) ∧
    (createsOf "gemini"
      (runOrch envC4 ⟨true, 3⟩ (Except.ok [gemA]) []).trace).length ≤ 1 :=
  ⟨fun _ => rfl,
    (C2_handle_lifecycle envC4 ⟨true, 3⟩ [gemA] [] (fun _ => rfl)).1 "gemini"⟩
